import Mathlib

/-! # go-port-tester: client prober and server report builder

A shallow embedding of `src/server/server.go` and `src/client/client.go`.

Conventions of the embedding

* A Go `map[K]V` is an association list with distinct keys, kept in insertion
  order (`GoMap`).  Go leaves the iteration order of a map unspecified, so every
  statement about the rows of a report is phrased through membership, counting,
  length or sums, never through positions.
* `time.Time` is the instant it denotes, counted in nanoseconds from the zero time, so
  `Time.After` is the strict order on instants and the zero `Time` is `0`.
* Go `int` values are unbounded integers here.  The only arithmetic performed on
  them by the modelled functions is `TryCount++`, bounded by the length of the
  input slice.
* A run-time panic (index out of range) is an `Except.error` carrying a `Fault`.
* A Go string is the list of its characters.  The standard-library loops modelled here
  range over bytes; no byte of a multi-byte character is a digit, a sign, a bracket or
  a percent sign, so both readings take the same branches.
* `net.ParseIP` and the HTTP request are parameters.  `strconv.Atoi`, `time.Parse` with
  the layout of the access log, the field count of `csv.Reader.ReadAll` and the
  operand-free case of `fmt.Fprintf` are modelled after the Go standard library.
-/

namespace PortTester

/-! ## Go maps -/

/-- Association list standing for a Go map. -/
abbrev GoMap (K V : Type) := List (K × V)

/-- Map read `m[k]`, with the comma-ok result as an option. -/
def mapGet {K V : Type} [DecidableEq K] : GoMap K V → K → Option V
  | [], _ => none
  | (k', v) :: rest, k => if k' = k then some v else mapGet rest k

/-- Map write `m[k] = v`: replaces the binding of `k` or adds one. -/
def mapSet {K V : Type} [DecidableEq K] : GoMap K V → K → V → GoMap K V
  | [], k, v => [(k, v)]
  | (k', v') :: rest, k, v =>
    if k' = k then (k, v) :: rest else (k', v') :: mapSet rest k v

/-- The values of a map, as `for _, v := range m` visits them. -/
def mapValues {K V : Type} (m : GoMap K V) : List V := m.map Prod.snd

/-- The keys of a map, as `for k := range m` visits them. -/
def mapKeys {K V : Type} (m : GoMap K V) : List K := m.map Prod.fst

/-! ## server.go: data model -/

/-- Instant of a `time.Time`, counted in nanoseconds from the zero time. -/
abbrev Time := Int

/-- The zero value `time.Time{}`. -/
def zeroTime : Time := 0

/-- Method `t.After(u)`. -/
def Time.After (t u : Time) : Bool := decide (u < t)

/-- Struct `LogEntry` of server.go. -/
structure LogEntry where
  Timestamp : Time
  ClientIP : String
  ClientPort : String
  ServerPort : Int
  deriving DecidableEq, Repr

/-- Struct `ReportEntry` of server.go. -/
structure ReportEntry where
  ClientIP : String
  ClientPort : String
  LastAccess : Time
  TryCount : Int
  ServerPorts : GoMap Int Bool
  deriving DecidableEq, Repr

/-! ## server.go: buildReport -/

/-- The grouping key `log.ClientIP + ":" + log.ClientPort`. -/
def reportKey (log : LogEntry) : String := log.ClientIP ++ ":" ++ log.ClientPort

/-- The entry created when the key is not yet in the map. -/
def newEntry (log : LogEntry) : ReportEntry :=
  { ClientIP := log.ClientIP
    ClientPort := log.ClientPort
    LastAccess := log.Timestamp
    TryCount := 0
    ServerPorts := [] }

/-- The three updates made through the entry pointer in the loop body. -/
def touchEntry (entry : ReportEntry) (log : LogEntry) : ReportEntry :=
  { entry with
    TryCount := entry.TryCount + 1
    ServerPorts := mapSet entry.ServerPorts log.ServerPort true
    LastAccess :=
      if Time.After log.Timestamp entry.LastAccess then log.Timestamp else entry.LastAccess }

/-- One iteration of the loop of `buildReport`. -/
def buildReportStep (reportMap : GoMap String ReportEntry) (log : LogEntry) :
    GoMap String ReportEntry :=
  let key := reportKey log
  let entry :=
    match mapGet reportMap key with
    | some entry => entry
    | none => newEntry log
  mapSet reportMap key (touchEntry entry log)

/-- Function `buildReport` of server.go. -/
def buildReport (logs : List LogEntry) : List ReportEntry :=
  mapValues (logs.foldl buildReportStep [])

/-- Specification of a map entry: what the entry stored under key `k` records about the
log processed so far.  It is the invariant of the loop of `buildReport`. -/
structure GroupOf (logs : List LogEntry) (k : String) (r : ReportEntry) : Prop where
  origin : ∃ e ∈ logs, reportKey e = k ∧ r.ClientIP = e.ClientIP ∧ r.ClientPort = e.ClientPort
  tries : r.TryCount = (logs.countP (fun e => decide (reportKey e = k)) : Nat)
  ports : ∀ p, p ∈ mapKeys r.ServerPorts ↔ ∃ e ∈ logs, reportKey e = k ∧ e.ServerPort = p
  flags : ∀ p b, mapGet r.ServerPorts p = some b → b = true
  upper : ∀ e ∈ logs, reportKey e = k → e.Timestamp ≤ r.LastAccess
  attained : ∃ e ∈ logs, reportKey e = k ∧ e.Timestamp = r.LastAccess

/-! ## Go run-time and standard library -/

/-- A run-time panic of the Go program. -/
inductive Fault where
  | indexOutOfRange (index : Nat) (length : Nat)
  deriving DecidableEq, Repr

-- Equality of results is decidable, so that concrete runs can be evaluated.
deriving instance DecidableEq for Except

/-- Slice indexing `record[i]`, which panics when `i` is not below the length. -/
def goIndex (record : List String) (i : Nat) : Except Fault String :=
  if h : i < record.length then .ok (record.get ⟨i, h⟩)
  else .error (.indexOutOfRange i record.length)

/-- The two causes wrapped by a `strconv.NumError`: `ErrSyntax` and `ErrRange`. -/
inductive NumError where
  | syntaxError
  | rangeError
  deriving DecidableEq, Repr

/-- Value of a decimal digit byte, `none` for any other character. -/
def digitVal (c : Char) : Option Nat :=
  if 48 ≤ c.toNat ∧ c.toNat ≤ 57 then some (c.toNat - 48) else none

/-- The digit loop of the fast path of `strconv.Atoi`. -/
def atoiDigits : List Char → Nat → Option Nat
  | [], n => some n
  | ch :: rest, n =>
    match digitVal ch with
    | none => none
    | some d => atoiDigits rest (n * 10 + d)

/-- The fast path of `strconv.Atoi`, taken for inputs of 1 to 18 bytes. -/
def atoiFast (s0 : List Char) : Int × Option NumError :=
  let signed := s0.head? = some '-' ∨ s0.head? = some '+'
  let s := if signed then s0.tail else s0
  if signed ∧ s.length < 1 then (0, some .syntaxError)
  else
    match atoiDigits s 0 with
    | none => (0, some .syntaxError)
    | some n => (if s0.head? = some '-' then -(n : Int) else (n : Int), none)

/-- The digit loop of `strconv.ParseUint(s, 10, 64)`: `cutoff` is `maxUint64/10 + 1`, and
the sum `n*10 + d` is taken in 64 bits, a wrap-around being an `ErrRange`. -/
def parseUintLoop : List Char → Nat → Nat × Option NumError
  | [], n => (n, none)
  | c :: rest, n =>
    match digitVal c with
    | none => (0, some .syntaxError)
    | some d =>
      if n ≥ (2 ^ 64 - 1) / 10 + 1 then (2 ^ 64 - 1, some .rangeError)
      else
        let n10 := n * 10
        let n1 := (n10 + d) % 2 ^ 64
        if n1 < n10 ∨ n1 > 2 ^ 64 - 1 then (2 ^ 64 - 1, some .rangeError)
        else parseUintLoop rest n1

/-- Model of `strconv.ParseUint(s, 10, 64)`. -/
def parseUint (s : List Char) : Nat × Option NumError :=
  if s = [] then (0, some .syntaxError) else parseUintLoop s 0

/-- Model of `strconv.ParseInt(s, 10, 0)` with a 64-bit `int`. -/
def parseInt (s0 : List Char) : Int × Option NumError :=
  if s0 = [] then (0, some .syntaxError)
  else
    let neg := s0.head? = some '-'
    let s := if s0.head? = some '+' ∨ s0.head? = some '-' then s0.tail else s0
    match parseUint s with
    | (_, some .syntaxError) => (0, some .syntaxError)
    | (un, _) =>
      if ¬ neg ∧ un ≥ 2 ^ 63 then (2 ^ 63 - 1, some .rangeError)
      else if neg ∧ un > 2 ^ 63 then (-(2 ^ 63), some .rangeError)
      else (if neg then -(un : Int) else (un : Int), none)

/-- Model of `strconv.Atoi` of the Go standard library with a 64-bit `int`: the value
and the error it returns together.  A syntax error comes with the value 0, a range error
with the nearest bound of `int`. -/
def strconv_Atoi (s : String) : Int × Option NumError :=
  let sLen := s.utf8ByteSize
  if 0 < sLen ∧ sLen < 19 then atoiFast s.toList else parseInt s.toList

/-- Specification side: the number a string of decimal digits denotes in base ten; `none`
when a character is not a digit. -/
def decimalValue (ds : List Char) : Option Nat :=
  ds.foldl (fun acc c => acc.bind (fun n => (digitVal c).map (fun d => n * 10 + d))) (some 0)

/-- Specification side: the integer a decimal numeral denotes, an optional sign followed
by at least one decimal digit; `none` for any other text. -/
def denotedInt (s : String) : Option Int :=
  let ds := if s.toList.head? = some '-' ∨ s.toList.head? = some '+' then s.toList.tail
    else s.toList
  if ds = [] then none
  else (decimalValue ds).map
    (fun n => if s.toList.head? = some '-' then -(n : Int) else (n : Int))

/-! ## Go standard library: fmt.Fprintf without operands -/

/-- Function `parsenum` of package fmt on the part of the format between its `start` and
`end`: the number read, whether one was read, and what is left of that part.  A number
past `tooLarge` gives up and moves to `end`. -/
def parsenumLoop : List Char → Nat → Bool → Nat × Bool × List Char
  | [], num, isnum => (num, isnum, [])
  | c :: rest, num, isnum =>
    match digitVal c with
    | none => (num, isnum, c :: rest)
    | some d =>
      if num > 1000000 then (0, false, [])
      else parsenumLoop rest (num * 10 + d) true

/-- Function `parsenum` of package fmt, see `parsenumLoop`. -/
def parsenum (s : List Char) : Nat × Bool × List Char := parsenumLoop s 0 false

/-- Method `argNumber` of package fmt when there is no operand: what is left of the
format, whether a well-formed index `[n]` was found, and whether a bracket was met (which
clears `goodArgNum`, no index being in range). -/
def argNumber (format : List Char) : List Char × Bool × Bool :=
  match format with
  | '[' :: rest =>
    if format.length < 3 then (rest, false, true)
    else if ']' ∈ rest then
      let inside := rest.takeWhile (fun c => c != ']')
      let after := (rest.dropWhile (fun c => c != ']')).tail
      if (parsenum inside).2.1 = false ∨ (parsenum inside).2.2 ≠ [] then (after, false, true)
      else (after, true, true)
    else (rest, false, true)
  | _ => (format, false, false)

/-- The flags skipped after a percent sign. -/
def isFlag (c : Char) : Bool :=
  c = '#' ∨ c = '0' ∨ c = '+' ∨ c = '-' ∨ c = ' '

/-- The width of a directive.  A `*` asks for an operand that is not there, which writes
the bad-width text; otherwise a number may follow, and one that follows an index clears
`goodArgNum`.  Returns what is left of the format, the text written, `afterIndex` and
`goodArgNum`. -/
def doWidth (s : List Char) (afterIndex good : Bool) :
    List Char × List Char × Bool × Bool :=
  match s with
  | '*' :: rest => (rest, "%!(BADWIDTH)".toList, false, good)
  | _ => ((parsenum s).2.2, [], afterIndex, good && !(afterIndex && (parsenum s).2.1))

/-- The precision of a directive, after the width: a dot, then an index, then `*` (which
writes the bad-precision text) or a number.  Same results as `doWidth`, `out` being the
text written so far. -/
def doPrecision (s out : List Char) (afterIndex good : Bool) :
    List Char × List Char × Bool × Bool :=
  match s with
  | '.' :: rest =>
    match (argNumber rest).1 with
    | '*' :: r2 =>
      (r2, out ++ "%!(BADPREC)".toList, false,
        good && !afterIndex && !(argNumber rest).2.2)
    | r1 =>
      ((parsenum r1).2.2, out, (argNumber rest).2.1,
        good && !afterIndex && !(argNumber rest).2.2)
  | _ => (s, out, afterIndex, good)

/-- The index read right before the verb, when none was just read. -/
def doLastIndex (s : List Char) (afterIndex good : Bool) : List Char × Bool :=
  if afterIndex then (s, good) else ((argNumber s).1, good && !(argNumber s).2.2)

/-- The verb of a directive when there is no operand: the text written for the whole
directive and what is left of the format, `none` after the missing-verb text, which ends
the loop. -/
def doVerb (s out : List Char) (good : Bool) : List Char × Option (List Char) :=
  match s with
  | [] => (out ++ "%!(NOVERB)".toList, none)
  | verb :: rest =>
    if verb = '%' then (out ++ ['%'], some rest)
    else if good = false then
      (out ++ "%!".toList ++ [verb] ++ "(BADINDEX)".toList, some rest)
    else (out ++ "%!".toList ++ [verb] ++ "(MISSING)".toList, some rest)

/-- One directive of `doPrintf`, from the byte after the percent sign on, when there is no
operand: flags, index, width, precision, index, verb. -/
def doDirective (afterPercent : List Char) : List Char × Option (List Char) :=
  let arg := argNumber (afterPercent.dropWhile isFlag)
  let w := doWidth arg.1 arg.2.1 (!arg.2.2)
  let p := doPrecision w.1 w.2.1 w.2.2.1 w.2.2.2
  let l := doLastIndex p.1 p.2.2.1 p.2.2.2
  doVerb l.1 p.2.1 l.2

/-- The loop of `doPrintf` of package fmt when there is no operand.  Every round takes at
least the percent sign off the format, so any fuel above the length of the format gives
the same text (`doPrintfLoop_fuel`). -/
def doPrintfLoop : Nat → List Char → List Char → List Char
  | 0, _, out => out
  | fuel + 1, format, out =>
    let out1 := out ++ format.takeWhile (fun c => c != '%')
    match format.dropWhile (fun c => c != '%') with
    | [] => out1
    | _ :: afterPercent =>
      match doDirective afterPercent with
      | (written, none) => out1 ++ written
      | (written, some rest) => doPrintfLoop fuel rest (out1 ++ written)

/-- Model of `fmt.Fprintf(w, format)` of the Go standard library called with a format and
no operand: the text written to `w`. -/
def fmt_Fprintf (format : String) : String :=
  String.mk (doPrintfLoop (format.length + 1) format.toList [])

/-! ## server.go: startServer -/

/-- Struct `ServerConfig` of server.go. -/
structure ServerConfig where
  Port : Int
  Text : String
  deriving DecidableEq, Repr

/-- The body written by the handler that `startServer` registers:
`fmt.Fprintf(w, config.Text)`. -/
def handlerBody (config : ServerConfig) : String := fmt_Fprintf config.Text

/-! ## Go standard library: time.Parse with the layout of the access log

`time.Parse("2006-01-02 15:04:05", value)`: the layout splits into the chunks year, `-`
month, `-` day, blank hour, `:` minute, `:` second.  A `Time` is counted here in
nanoseconds from the zero time, 1 January of year 1, 00:00:00 UTC, and the result is in
UTC, for the layout has no zone. -/

/-- Function `isLeap` of package time. -/
def isLeap (year : Nat) : Bool :=
  year % 4 = 0 && (year % 100 != 0 || year % 400 = 0)

/-- Function `daysIn` of package time. -/
def daysIn (month year : Nat) : Nat :=
  if month = 2 then (if isLeap year then 29 else 28)
  else if month = 4 ∨ month = 6 ∨ month = 9 ∨ month = 11 then 30
  else 31

/-- Table `daysBefore` of package time: the days of a non-leap year before a month. -/
def daysBefore (month : Nat) : Nat :=
  [0, 31, 59, 90, 120, 151, 181, 212, 243, 273, 304, 334].getD (month - 1) 0

/-- The instant of `time.Date(year, month, day, hour, min, sec, nsec, time.UTC)` for
fields in their ranges: the days of the proleptic Gregorian calendar since 1 January of
year 1, then the time of day, in nanoseconds. -/
def dateInstant (year month day hour min sec nsec : Nat) : Time :=
  let y : Int := (year : Int) - 1
  let days : Int := 365 * y + Int.fdiv y 4 - Int.fdiv y 100 + Int.fdiv y 400
    + (daysBefore month : Int) + (if isLeap year && month ≥ 3 then 1 else 0)
    + ((day : Int) - 1)
  ((days * 86400 + (hour : Int) * 3600 + (min : Int) * 60 + (sec : Int)) * 1000000000)
    + (nsec : Int)

/-- Function `getnum` of package time: a number of two digits, or of one digit when the
field is not `fixed`, and what is left of the value. -/
def getnum (s : List Char) (isFixed : Bool) : Option (Nat × List Char) :=
  match s with
  | [] => none
  | c0 :: rest0 =>
    match digitVal c0 with
    | none => none
    | some d0 =>
      match rest0.head?.bind digitVal with
      | none => if isFixed then none else some (d0, rest0)
      | some d1 => some (d0 * 10 + d1, rest0.tail)

/-- The chunk `stdLongYear`: four bytes that are all digits. -/
def getYear (s : List Char) : Option (Nat × List Char) :=
  match s with
  | c0 :: c1 :: c2 :: c3 :: rest => do
    let d0 ← digitVal c0
    let d1 ← digitVal c1
    let d2 ← digitVal c2
    let d3 ← digitVal c3
    pure (d0 * 1000 + d1 * 100 + d2 * 10 + d3, rest)
  | _ => none

/-- Function `skip` of package time for a prefix of one byte that is not a blank: the
value has to start with that byte. -/
def skipByte (value : List Char) (b : Char) : Option (List Char) :=
  match value with
  | c :: rest => if c = b then some rest else none
  | [] => none

/-- Function `skip` of package time for the prefix of one blank: a value that is not
empty has to start with a blank, and all its leading blanks are cut. -/
def skipSpace (value : List Char) : Option (List Char) :=
  match value with
  | c :: _ => if c = ' ' then some (value.dropWhile (fun x => x = ' ')) else none
  | [] => some []

/-- The fractional second that may follow the seconds although the layout has none: a
period or comma and at least one digit.  At most nine digits count, the others are
dropped.  Returns the nanoseconds and what is left of the value. -/
def getFraction (value : List Char) : Nat × List Char :=
  match value with
  | sep :: rest =>
    if (sep = '.' ∨ sep = ',') ∧ (rest.head?.bind digitVal).isSome then
      let digits := (rest.takeWhile (fun c => (digitVal c).isSome)).take 9
      ((atoiDigits digits 0).getD 0 * 10 ^ (9 - digits.length),
        rest.dropWhile (fun c => (digitVal c).isSome))
    else (0, value)
  | [] => (0, value)

/-- The chunks year, `-` month, `-` day of the layout: the three numbers and what is left
of the value.  A month outside 1 to 12 is an error at once; the day is validated after
the loop. -/
def parseDate (value : List Char) : Option (Nat × Nat × Nat × List Char) :=
  (getYear value).bind fun yv =>
  (skipByte yv.2 '-').bind fun v2 =>
  (getnum v2 true).bind fun mv =>
  if mv.1 = 0 ∨ 12 < mv.1 then none
  else
    (skipByte mv.2 '-').bind fun v4 =>
    (getnum v4 true).bind fun dv =>
    some (yv.1, mv.1, dv.1, dv.2)

/-- The chunks blank hour, `:` minute of the layout, an hour of one or two digits below 24
and a minute of two digits below 60. -/
def parseHourMinute (value : List Char) : Option (Nat × Nat × List Char) :=
  (skipSpace value).bind fun v6 =>
  (getnum v6 false).bind fun hv =>
  if 24 ≤ hv.1 then none
  else
    (skipByte hv.2 ':').bind fun v8 =>
    (getnum v8 true).bind fun mv =>
    if 60 ≤ mv.1 then none else some (hv.1, mv.1, mv.2)

/-- The chunk `:` second of the layout with the fractional second that may follow, and the
end of the layout, where text left over is an error: seconds and nanoseconds. -/
def parseSecond (value : List Char) : Option (Nat × Nat) :=
  (skipByte value ':').bind fun v10 =>
  (getnum v10 true).bind fun sv =>
  if 60 ≤ sv.1 then none
  else if (getFraction sv.2).2 ≠ [] then none
  else some (sv.1, (getFraction sv.2).1)

/-- The loop of `parse` of package time over the chunks of the layout, and the validation
of the day after it; `none` stands for every place where `parse` returns an error. -/
def parseStamp (value : List Char) : Option Time :=
  (parseDate value).bind fun d =>
  (parseHourMinute d.2.2.2).bind fun h =>
  (parseSecond h.2.2).bind fun s =>
  if d.2.2.1 < 1 ∨ d.2.2.1 > daysIn d.2.1 d.1 then none
  else some (dateInstant d.1 d.2.1 d.2.2.1 h.1 h.2.1 s.1 s.2)

/-- Model of `time.Parse("2006-01-02 15:04:05", value)` of the Go standard library: the
`Time` returned and whether an error came with it.  Every error return of `parse` is
`return Time{}, err`. -/
def time_Parse (value : String) : Time × Bool :=
  match parseStamp value.toList with
  | some t => (t, false)
  | none => (zeroTime, true)

/-! ## Go standard library: csv.Reader.ReadAll -/

/-- The error `csv.ErrFieldCount`, with the number of the record it is raised for. -/
inductive CsvError where
  | fieldCount (record : Nat)
  deriving DecidableEq, Repr

/-- The loop of `ReadAll` on a reader left at its defaults, over the rows of the file:
`FieldsPerRecord` is 0 at first, which makes the first row set it, and a later row with
another number of fields makes `ReadAll` return `ErrFieldCount` and no record. -/
def csvReadAllLoop : Nat → Nat → List (List String) → List (List String) →
    Except CsvError (List (List String))
  | _, _, [], records => .ok records
  | fieldsPerRecord, n, row :: rest, records =>
    if fieldsPerRecord > 0 then
      if row.length ≠ fieldsPerRecord then .error (.fieldCount (n + 1))
      else csvReadAllLoop fieldsPerRecord (n + 1) rest (records ++ [row])
    else csvReadAllLoop row.length (n + 1) rest (records ++ [row])

/-- Model of `csv.NewReader(file).ReadAll()` of the Go standard library on the rows of the
file, as far as the number of fields goes. -/
def csvReadAll (rows : List (List String)) : Except CsvError (List (List String)) :=
  csvReadAllLoop 0 0 rows []

/-! ## server.go: readLog -/

/-- How `readLog` fails: it returns the error of `ReadAll`, or it panics. -/
inductive ReadLogFailure where
  | returned (err : CsvError)
  | panicked (fault : Fault)
  deriving DecidableEq, Repr

/-- The loop of `readLog` over the records `reader.ReadAll()` returned.  The errors of
`time.Parse` and `strconv.Atoi` are discarded by the code. -/
def readLogLoop : List (List String) → List LogEntry → Except Fault (List LogEntry)
  | [], logs => .ok logs
  | record :: rest, logs => do
    let field0 ← goIndex record 0
    let timestamp := (time_Parse field0).1
    let field3 ← goIndex record 3
    let serverPort := (strconv_Atoi field3).1
    let field1 ← goIndex record 1
    let field2 ← goIndex record 2
    readLogLoop rest
      (logs ++ [{ Timestamp := timestamp, ClientIP := field1, ClientPort := field2,
                  ServerPort := serverPort }])

/-- Function `readLog` of server.go, from the rows of the opened file on: `ReadAll`, whose
error is returned, then the loop over the records. -/
def readLog (rows : List (List String)) : Except ReadLogFailure (List LogEntry) :=
  match csvReadAll rows with
  | .error err => .error (.returned err)
  | .ok records =>
    match readLogLoop records [] with
    | .error fault => .error (.panicked fault)
    | .ok logs => .ok logs

/-- Specification side: the log entry that `readLog` is to build from a record of at least
four fields, field by field. -/
def entryOfRecord (record : List String) : LogEntry :=
  { Timestamp := (time_Parse (record.getD 0 "")).1
    ClientIP := record.getD 1 ""
    ClientPort := record.getD 2 ""
    ServerPort := (strconv_Atoi (record.getD 3 "")).1 }

namespace Client

/-! ## client.go -/

/-- Struct `TestResult` of client.go. -/
structure TestResult where
  IP : String
  Port : Int
  Status : String
  deriving DecidableEq, Repr

/-- Struct `ServerConfig` of client.go. -/
structure ServerConfig where
  IP : String
  Port : Int
  deriving DecidableEq, Repr

/-- The format errors `validateServersCSV` returns, each citing a line number. -/
inductive FormatError where
  | invalidFormat (line : Nat)
  | invalidIP (line : Nat) (field : String)
  | invalidPort (line : Nat) (cause : NumError)
  deriving DecidableEq, Repr

/-- The line number cited by a format error. -/
def FormatError.line : FormatError → Nat
  | .invalidFormat line => line
  | .invalidIP line _ => line
  | .invalidPort line _ => line

/-- The loop of `validateServersCSV`, `i` being the loop index; `none` is the nil error.
`parseIP s` tells whether `net.ParseIP(s)` is non-nil. -/
def validateServersLoop (parseIP : String → Bool) :
    Nat → List (List String) → Option FormatError
  | _, [] => none
  | i, record :: rest =>
    if h : record.length < 2 then some (.invalidFormat (i + 1))
    else if parseIP (record.get ⟨0, by omega⟩) = false then
      some (.invalidIP (i + 1) (record.get ⟨0, by omega⟩))
    else
      match (strconv_Atoi (record.get ⟨1, by omega⟩)).2 with
      | some err => some (.invalidPort (i + 1) err)
      | none => validateServersLoop parseIP (i + 1) rest

/-- Function `validateServersCSV` of client.go, from the records read from the file on. -/
def validateServersCSV (parseIP : String → Bool) (records : List (List String)) :
    Option FormatError :=
  validateServersLoop parseIP 0 records

/-- Specification side: the three conditions on a row of the servers file: at least two
fields, a first field that parses as an IP literal, a second field that parses as an
integer. -/
def rowValid (parseIP : String → Bool) (record : List String) : Prop :=
  2 ≤ record.length ∧ parseIP (record.getD 0 "") = true ∧
    (strconv_Atoi (record.getD 1 "")).2 = none

/-- The loop of `readServersCSV`. -/
def readServersLoop : List (List String) → List ServerConfig →
    Except Fault (List ServerConfig)
  | [], servers => .ok servers
  | record :: rest, servers => do
    let field1 ← goIndex record 1
    let port := (strconv_Atoi field1).1
    let field0 ← goIndex record 0
    readServersLoop rest (servers ++ [{ IP := field0, Port := port }])

/-- Function `readServersCSV` of client.go, from the records read from the file on. -/
def readServersCSV (records : List (List String)) : Except Fault (List ServerConfig) :=
  readServersLoop records []

/-- Specification side: the `ServerConfig` that `readServersCSV` is to build from a record
of at least two fields. -/
def configOfRecord (record : List String) : ServerConfig :=
  { IP := record.getD 0 "", Port := (strconv_Atoi (record.getD 1 "")).1 }

/-- The response of an HTTP request, as far as `checkPort` reads it. -/
structure Response where
  StatusCode : Int
  deriving DecidableEq, Repr

/-- Constant `http.StatusOK`. -/
def StatusOK : Int := 200

/-- Function `checkPort` of client.go.  `get url` stands for `client.Get(url)` under the
configured timeout: an error, or the response.  `results` is the content of the results
channel, to which the send appends. -/
def checkPort (get : String → Except String Response) (ip : String) (port : Int)
    (results : List TestResult) : List TestResult :=
  let url := "http://" ++ ip ++ ":" ++ toString port
  let status :=
    match get url with
    | .ok resp => if resp.StatusCode = StatusOK then "open" else "closed"
    | .error _ => "closed"
  results ++ [{ IP := ip, Port := port, Status := status }]

end Client

/-! # Theorems -/

/-! ## Lemmas on Go maps -/

theorem mapGet_mapSet {K V : Type} [DecidableEq K] (m : GoMap K V) (k k' : K) (v : V) :
    mapGet (mapSet m k v) k' = if k = k' then some v else mapGet m k' := by
  induction m with
  | nil => simp [mapSet, mapGet]
  | cons hd tl ih =>
    obtain ⟨a, b⟩ := hd
    by_cases h : a = k
    · subst h
      by_cases h' : a = k' <;> simp [mapSet, mapGet, h']
    · by_cases h' : a = k'
      · subst h'
        have : ¬ k = a := fun e => h e.symm
        simp [mapSet, mapGet, h, this]
      · simp [mapSet, mapGet, h, h', ih]

theorem mapGet_eq_none_iff {K V : Type} [DecidableEq K] (m : GoMap K V) (k : K) :
    mapGet m k = none ↔ k ∉ mapKeys m := by
  induction m with
  | nil => simp [mapGet, mapKeys]
  | cons hd tl ih =>
    obtain ⟨a, b⟩ := hd
    by_cases h : a = k
    · simp [mapGet, mapKeys, h]
    · have h2 : ¬ k = a := fun e => h e.symm
      simpa [mapGet, mapKeys, h, h2] using ih

theorem mapKeys_mapSet {K V : Type} [DecidableEq K] (m : GoMap K V) (k : K) (v : V) :
    mapKeys (mapSet m k v) = if k ∈ mapKeys m then mapKeys m else mapKeys m ++ [k] := by
  induction m with
  | nil => simp [mapSet, mapKeys]
  | cons hd tl ih =>
    obtain ⟨a, b⟩ := hd
    by_cases h : a = k
    · subst h
      simp [mapSet, mapKeys]
    · have h2 : ¬ k = a := fun e => h e.symm
      simp only [mapKeys] at ih
      simp only [mapSet, mapKeys, h, if_false, List.map_cons, List.mem_cons, h2, false_or, ih]
      split <;> simp

theorem mapKeys_nodup_mapSet {K V : Type} [DecidableEq K] (m : GoMap K V) (k : K) (v : V)
    (h : (mapKeys m).Nodup) : (mapKeys (mapSet m k v)).Nodup := by
  rw [mapKeys_mapSet]
  split
  · exact h
  · rename_i hk
    rw [List.nodup_append]
    refine ⟨h, List.nodup_singleton k, ?_⟩
    intro a ha hb
    simp at hb
    subst hb
    exact hk ha

theorem mem_of_mapGet {K V : Type} [DecidableEq K] (m : GoMap K V) (k : K) (v : V)
    (h : mapGet m k = some v) : (k, v) ∈ m := by
  induction m with
  | nil => simp [mapGet] at h
  | cons hd tl ih =>
    obtain ⟨a, b⟩ := hd
    by_cases hk : a = k
    · subst hk
      simp [mapGet] at h
      simp [h]
    · simp [mapGet, hk] at h
      exact List.mem_cons_of_mem _ (ih h)

theorem mapGet_of_mem {K V : Type} [DecidableEq K] (m : GoMap K V) (k : K) (v : V)
    (hnd : (mapKeys m).Nodup) (h : (k, v) ∈ m) : mapGet m k = some v := by
  induction m with
  | nil => simp at h
  | cons hd tl ih =>
    obtain ⟨a, b⟩ := hd
    simp only [mapKeys, List.map_cons, List.nodup_cons] at hnd
    rcases List.mem_cons.mp h with h | h
    · cases h
      simp [mapGet]
    · have hne : a ≠ k := by
        intro e; subst e
        exact hnd.1 (List.mem_map.mpr ⟨(a, v), h, rfl⟩)
      simp only [mapGet, hne, if_false]
      exact ih hnd.2 h

/-! ## The loop invariant of buildReport -/

theorem groupOf_skip {logs : List LogEntry} {k : String} {r : ReportEntry} (e : LogEntry)
    (hne : reportKey e ≠ k) (h : GroupOf logs k r) : GroupOf (logs ++ [e]) k r := by
  obtain ⟨⟨e0, he0, h0⟩, ht, hp, hf, hu, ⟨e1, he1, h1⟩⟩ := h
  refine ⟨⟨e0, by simp [he0], h0⟩, ?_, ?_, hf, ?_, ⟨e1, by simp [he1], h1⟩⟩
  · simp [List.countP_append, hne, ht]
  · intro p
    rw [hp p]
    constructor
    · rintro ⟨x, hx, hx2⟩
      exact ⟨x, by simp [hx], hx2⟩
    · rintro ⟨x, hx, hx2⟩
      rcases List.mem_append.mp hx with hx | hx
      · exact ⟨x, hx, hx2⟩
      · simp at hx; subst hx; exact absurd hx2.1 hne
  · intro x hx hk
    rcases List.mem_append.mp hx with hx | hx
    · exact hu x hx hk
    · simp at hx; subst hx; exact absurd hk hne

theorem groupOf_new (logs : List LogEntry) (e : LogEntry)
    (hfresh : ∀ x ∈ logs, reportKey x ≠ reportKey e) :
    GroupOf (logs ++ [e]) (reportKey e) (touchEntry (newEntry e) e) := by
  refine ⟨⟨e, by simp, rfl, rfl, rfl⟩, ?_, ?_, ?_, ?_, ⟨e, by simp, rfl, ?_⟩⟩
  · have : logs.countP (fun x => decide (reportKey x = reportKey e)) = 0 := by
      rw [List.countP_eq_zero]
      intro x hx
      simpa using hfresh x hx
    simp [List.countP_append, this, touchEntry, newEntry]
  · intro p
    simp only [touchEntry, newEntry, mapKeys_mapSet]
    constructor
    · intro hp
      simp [mapKeys] at hp
      exact ⟨e, by simp, rfl, hp.symm⟩
    · rintro ⟨x, hx, hk, hp⟩
      rcases List.mem_append.mp hx with hx | hx
      · exact absurd hk (hfresh x hx)
      · simp at hx; subst hx; simp [mapKeys, hp]
  · intro p b hb
    simp only [touchEntry, newEntry, mapGet_mapSet] at hb
    split at hb
    · simpa using hb.symm
    · simp [mapGet] at hb
  · intro x hx hk
    rcases List.mem_append.mp hx with hx | hx
    · exact absurd hk (hfresh x hx)
    · simp at hx; subst hx
      simp [touchEntry, newEntry, Time.After]
  · simp [touchEntry, newEntry, Time.After]

theorem groupOf_touch {logs : List LogEntry} {r : ReportEntry} (e : LogEntry)
    (h : GroupOf logs (reportKey e) r) :
    GroupOf (logs ++ [e]) (reportKey e) (touchEntry r e) := by
  obtain ⟨⟨e0, he0, h0⟩, ht, hp, hf, hu, ⟨e1, he1, hk1, h1⟩⟩ := h
  refine ⟨⟨e0, by simp [he0], h0⟩, ?_, ?_, ?_, ?_, ?_⟩
  · simp [List.countP_append, touchEntry, ht]
  · intro p
    simp only [touchEntry, mapKeys_mapSet]
    constructor
    · intro hmem
      have : p ∈ mapKeys r.ServerPorts ∨ p = e.ServerPort := by
        split at hmem
        · exact Or.inl hmem
        · simpa using hmem
      rcases this with h' | h'
      · obtain ⟨x, hx, hx2⟩ := (hp p).mp h'
        exact ⟨x, by simp [hx], hx2⟩
      · exact ⟨e, by simp, rfl, h'.symm⟩
    · rintro ⟨x, hx, hk, hpx⟩
      rcases List.mem_append.mp hx with hx | hx
      · have := (hp p).mpr ⟨x, hx, hk, hpx⟩
        split
        · exact this
        · simp [this]
      · simp at hx; subst hx; subst hpx
        split
        · assumption
        · simp
  · intro p b hb
    simp only [touchEntry, mapGet_mapSet] at hb
    split at hb
    · simpa using hb.symm
    · exact hf p b hb
  · intro x hx hk
    simp only [touchEntry, Time.After]
    rcases List.mem_append.mp hx with hx | hx
    · have := hu x hx hk
      split
      · rename_i hlt; simp at hlt; exact le_trans this (le_of_lt hlt)
      · exact this
    · simp at hx; subst hx
      split
      · exact le_refl _
      · rename_i hlt; simp at hlt; exact hlt
  · simp only [touchEntry, Time.After]
    split
    · exact ⟨e, by simp, rfl, rfl⟩
    · exact ⟨e1, by simp [he1], hk1, h1⟩

theorem buildReportStep_keys (m : GoMap String ReportEntry) (e : LogEntry) :
    mapKeys (buildReportStep m e) =
      if reportKey e ∈ mapKeys m then mapKeys m else mapKeys m ++ [reportKey e] := by
  simp only [buildReportStep, mapKeys_mapSet]

theorem buildReportStep_get_new (m : GoMap String ReportEntry) (e : LogEntry) (k : String)
    (h : mapGet m (reportKey e) = none) :
    mapGet (buildReportStep m e) k =
      if reportKey e = k then some (touchEntry (newEntry e) e) else mapGet m k := by
  simp only [buildReportStep, mapGet_mapSet, h]

theorem buildReportStep_get_old (m : GoMap String ReportEntry) (e : LogEntry) (k : String)
    (r0 : ReportEntry) (h : mapGet m (reportKey e) = some r0) :
    mapGet (buildReportStep m e) k =
      if reportKey e = k then some (touchEntry r0 e) else mapGet m k := by
  simp only [buildReportStep, mapGet_mapSet, h]

/-- The invariant of the loop of `buildReport`, after the whole log. -/
theorem buildReport_loop (logs : List LogEntry) :
    (mapKeys (logs.foldl buildReportStep [])).Nodup ∧
    (∀ k, k ∈ mapKeys (logs.foldl buildReportStep []) ↔ ∃ e ∈ logs, reportKey e = k) ∧
    (∀ k r, mapGet (logs.foldl buildReportStep []) k = some r → GroupOf logs k r) := by
  induction logs using List.reverseRecOn with
  | nil =>
    refine ⟨by simp [mapKeys], by simp [mapKeys], ?_⟩
    intro k r h
    simp [mapGet] at h
  | append_singleton l e ih =>
    obtain ⟨hnd, hkeys, hgrp⟩ := ih
    rw [List.foldl_append, List.foldl_cons, List.foldl_nil]
    refine ⟨?_, ?_, ?_⟩
    · exact mapKeys_nodup_mapSet _ _ _ hnd
    · intro k
      rw [buildReportStep_keys]
      constructor
      · intro hk
        have : k ∈ mapKeys (l.foldl buildReportStep []) ∨ k = reportKey e := by
          split at hk
          · exact Or.inl hk
          · simpa using hk
        rcases this with h | h
        · obtain ⟨x, hx, hxk⟩ := (hkeys k).mp h
          exact ⟨x, by simp [hx], hxk⟩
        · exact ⟨e, by simp, h.symm⟩
      · rintro ⟨x, hx, hxk⟩
        rcases List.mem_append.mp hx with hx | hx
        · have := (hkeys k).mpr ⟨x, hx, hxk⟩
          split
          · exact this
          · simp [this]
        · simp at hx; subst hx; subst hxk
          split
          · assumption
          · simp
    · intro k r hget
      cases hprev : mapGet (l.foldl buildReportStep []) (reportKey e) with
      | none =>
        rw [buildReportStep_get_new _ _ _ hprev] at hget
        by_cases hk : reportKey e = k
        · subst hk
          simp only [if_true, Option.some.injEq] at hget
          subst hget
          apply groupOf_new
          intro x hx hxe
          exact (mapGet_eq_none_iff _ _).mp hprev ((hkeys _).mpr ⟨x, hx, hxe⟩)
        · simp only [hk, if_false] at hget
          exact groupOf_skip e hk (hgrp _ _ hget)
      | some r0 =>
        rw [buildReportStep_get_old _ _ _ r0 hprev] at hget
        by_cases hk : reportKey e = k
        · subst hk
          simp only [if_true, Option.some.injEq] at hget
          subst hget
          exact groupOf_touch e (hgrp _ _ hprev)
        · simp only [hk, if_false] at hget
          exact groupOf_skip e hk (hgrp _ _ hget)

theorem mem_buildReport (logs : List LogEntry) (r : ReportEntry) :
    r ∈ buildReport logs ↔ ∃ k, mapGet (logs.foldl buildReportStep []) k = some r := by
  obtain ⟨hnd, -, -⟩ := buildReport_loop logs
  simp only [buildReport, mapValues, List.mem_map]
  constructor
  · rintro ⟨⟨k, v⟩, hmem, rfl⟩
    exact ⟨k, mapGet_of_mem _ _ _ hnd hmem⟩
  · rintro ⟨k, hk⟩
    exact ⟨(k, r), mem_of_mapGet _ _ _ hk, rfl⟩

theorem groupOf_of_mem_buildReport (logs : List LogEntry) (r : ReportEntry)
    (h : r ∈ buildReport logs) : ∃ k, GroupOf logs k r := by
  obtain ⟨k, hk⟩ := (mem_buildReport logs r).mp h
  exact ⟨k, (buildReport_loop logs).2.2 k r hk⟩

/-! ## The grouping key -/

theorem colon_split_unique (a b p q : List Char) (hp : ':' ∉ p) (hq : ':' ∉ q)
    (h : a ++ ':' :: p = b ++ ':' :: q) : a = b ∧ p = q := by
  induction a generalizing b with
  | nil =>
    cases b with
    | nil => simpa using h
    | cons c b' =>
      simp only [List.nil_append, List.cons_append, List.cons.injEq] at h
      exact absurd (h.2 ▸ List.mem_append_right b' (List.mem_cons_self _ _)) hp
  | cons x a' ih =>
    cases b with
    | nil =>
      simp only [List.nil_append, List.cons_append, List.cons.injEq] at h
      exact absurd (h.2 ▸ List.mem_append_right a' (List.mem_cons_self _ _)) hq
    | cons c b' =>
      simp only [List.cons_append, List.cons.injEq] at h
      obtain ⟨h1, h2⟩ := ih b' h.2
      exact ⟨by rw [h.1, h1], h2⟩

/-- The grouping key determines the pair when neither port holds a colon. -/
theorem reportKey_inj (e1 e2 : LogEntry) (h1 : ':' ∉ e1.ClientPort.toList)
    (h2 : ':' ∉ e2.ClientPort.toList) (h : reportKey e1 = reportKey e2) :
    e1.ClientIP = e2.ClientIP ∧ e1.ClientPort = e2.ClientPort := by
  have h' := congrArg String.toList h
  simp only [reportKey, String.toList, String.data_append] at h'
  have h'' : e1.ClientIP.data ++ ':' :: e1.ClientPort.data
      = e2.ClientIP.data ++ ':' :: e2.ClientPort.data := by
    simpa [List.append_assoc] using h'
  obtain ⟨ha, hb⟩ := colon_split_unique _ _ _ _ h1 h2 h''
  exact ⟨String.ext ha, String.ext hb⟩

theorem reportKey_congr (e1 e2 : LogEntry) (h1 : e1.ClientIP = e2.ClientIP)
    (h2 : e1.ClientPort = e2.ClientPort) : reportKey e1 = reportKey e2 := by
  simp [reportKey, h1, h2]

/-! ## buildReport: the rows of the report -/

theorem groupOf_key_iff {logs : List LogEntry} {k : String} {r : ReportEntry}
    (hcolon : ∀ e ∈ logs, ':' ∉ e.ClientPort.toList) (hg : GroupOf logs k r)
    (e : LogEntry) (he : e ∈ logs) :
    reportKey e = k ↔ e.ClientIP = r.ClientIP ∧ e.ClientPort = r.ClientPort := by
  obtain ⟨e0, he0, hk0, hip, hport⟩ := hg.origin
  constructor
  · intro hk
    have := reportKey_inj e e0 (hcolon e he) (hcolon e0 he0) (hk.trans hk0.symm)
    exact ⟨this.1.trans hip.symm, this.2.trans hport.symm⟩
  · rintro ⟨h1, h2⟩
    rw [← hk0]
    exact reportKey_congr e e0 (h1.trans hip) (h2.trans hport)

theorem mapGet_true_iff_mem_keys {r : ReportEntry} {logs : List LogEntry} {k : String}
    (hg : GroupOf logs k r) (p : Int) :
    mapGet r.ServerPorts p = some true ↔ p ∈ mapKeys r.ServerPorts := by
  constructor
  · intro h
    by_contra hn
    rw [(mapGet_eq_none_iff _ _).mpr hn] at h
    exact Option.noConfusion h
  · intro h
    cases hget : mapGet r.ServerPorts p with
    | none => exact absurd h ((mapGet_eq_none_iff _ _).mp hget)
    | some b => rw [hg.flags p b hget]

/-- C3: when no ClientPort of the log holds a colon, the ServerPorts set of every row of
the report holds exactly the server ports of the log entries of that row's client, both as
the keys the report writer ranges over and as the keys mapped to true. -/
theorem buildReport_serverPorts_exact (logs : List LogEntry)
    (hcolon : ∀ e ∈ logs, ':' ∉ e.ClientPort.toList)
    (r : ReportEntry) (hr : r ∈ buildReport logs) (p : Int) :
    (p ∈ mapKeys r.ServerPorts ↔
      ∃ e ∈ logs, e.ClientIP = r.ClientIP ∧ e.ClientPort = r.ClientPort ∧ e.ServerPort = p) ∧
    (mapGet r.ServerPorts p = some true ↔
      ∃ e ∈ logs, e.ClientIP = r.ClientIP ∧ e.ClientPort = r.ClientPort ∧ e.ServerPort = p) := by
  obtain ⟨k, hg⟩ := groupOf_of_mem_buildReport logs r hr
  have key : p ∈ mapKeys r.ServerPorts ↔
      ∃ e ∈ logs, e.ClientIP = r.ClientIP ∧ e.ClientPort = r.ClientPort ∧ e.ServerPort = p := by
    rw [hg.ports p]
    constructor
    · rintro ⟨e, he, hk, hp⟩
      obtain ⟨h1, h2⟩ := (groupOf_key_iff hcolon hg e he).mp hk
      exact ⟨e, he, h1, h2, hp⟩
    · rintro ⟨e, he, h1, h2, hp⟩
      exact ⟨e, he, (groupOf_key_iff hcolon hg e he).mpr ⟨h1, h2⟩, hp⟩
  exact ⟨key, (mapGet_true_iff_mem_keys hg p).trans key⟩

theorem buildReport_serverPorts_exact_witness :
    ((8081 : Int) ∈ mapKeys
      (⟨"10.0.0.1", "5555", 7, 2, [(8080, true), (8081, true)]⟩ : ReportEntry).ServerPorts ↔
      ∃ e ∈ [(⟨5, "10.0.0.1", "5555", 8080⟩ : LogEntry), ⟨7, "10.0.0.1", "5555", 8081⟩,
          ⟨6, "10.0.0.2", "5555", 9090⟩],
        e.ClientIP = "10.0.0.1" ∧ e.ClientPort = "5555" ∧ e.ServerPort = 8081) ∧
    (mapGet
      (⟨"10.0.0.1", "5555", 7, 2, [(8080, true), (8081, true)]⟩ : ReportEntry).ServerPorts
        8081 = some true ↔
      ∃ e ∈ [(⟨5, "10.0.0.1", "5555", 8080⟩ : LogEntry), ⟨7, "10.0.0.1", "5555", 8081⟩,
          ⟨6, "10.0.0.2", "5555", 9090⟩],
        e.ClientIP = "10.0.0.1" ∧ e.ClientPort = "5555" ∧ e.ServerPort = 8081) :=
  buildReport_serverPorts_exact
    [⟨5, "10.0.0.1", "5555", 8080⟩, ⟨7, "10.0.0.1", "5555", 8081⟩, ⟨6, "10.0.0.2", "5555", 9090⟩]
    (by decide) ⟨"10.0.0.1", "5555", 7, 2, [(8080, true), (8081, true)]⟩ (by decide) 8081

theorem keys_singleton_of_const {K V : Type} (m : GoMap K V) (k0 : K)
    (hnd : (mapKeys m).Nodup) (hall : ∀ k ∈ mapKeys m, k = k0) (hmem : k0 ∈ mapKeys m) :
    ∃ v, m = [(k0, v)] := by
  match m, hnd, hall, hmem with
  | [], _, _, hmem => simp [mapKeys] at hmem
  | [(a, v)], _, hall, _ =>
    have : a = k0 := hall a (by simp [mapKeys])
    exact ⟨v, by rw [this]⟩
  | (a, v) :: (b, w) :: rest, hnd, hall, _ =>
    have ha : a = k0 := hall a (by simp [mapKeys])
    have hb : b = k0 := hall b (by simp [mapKeys])
    simp [mapKeys, ha, hb] at hnd

/-- C2: for a non-empty log whose entries all carry the same ClientIP and ClientPort,
the report is a single row and its LastAccess is the maximum of the timestamps of the
log: no timestamp of the log exceeds it and some entry of the log carries it. -/
theorem buildReport_lastAccess_is_max (logs : List LogEntry) (hne : logs ≠ [])
    (hsame : ∀ e1 ∈ logs, ∀ e2 ∈ logs,
      e1.ClientIP = e2.ClientIP ∧ e1.ClientPort = e2.ClientPort) :
    ∃ r, buildReport logs = [r] ∧ (∀ e ∈ logs, e.Timestamp ≤ r.LastAccess) ∧
      ∃ e ∈ logs, e.Timestamp = r.LastAccess := by
  obtain ⟨e0, he0⟩ := List.exists_mem_of_ne_nil logs hne
  obtain ⟨hnd, hkeys, hgrp⟩ := buildReport_loop logs
  have hk : ∀ e ∈ logs, reportKey e = reportKey e0 := fun e he =>
    reportKey_congr e e0 (hsame e he e0 he0).1 (hsame e he e0 he0).2
  obtain ⟨r, hm⟩ := keys_singleton_of_const (logs.foldl buildReportStep []) (reportKey e0) hnd
    (by
      intro k hkm
      obtain ⟨e, he, hek⟩ := (hkeys k).mp hkm
      rw [← hek]; exact hk e he)
    ((hkeys _).mpr ⟨e0, he0, rfl⟩)
  have hg : GroupOf logs (reportKey e0) r := by
    apply hgrp
    rw [hm]; simp [mapGet]
  refine ⟨r, by simp [buildReport, mapValues, hm], ?_, ?_⟩
  · intro e he
    exact hg.upper e he (hk e he)
  · obtain ⟨e, he, -, ht⟩ := hg.attained
    exact ⟨e, he, ht⟩

theorem buildReport_lastAccess_is_max_witness :
    ∃ r, buildReport [⟨1, "10.0.0.1", "5555", 8080⟩, ⟨3, "10.0.0.1", "5555", 8081⟩,
        ⟨2, "10.0.0.1", "5555", 8080⟩] = [r] ∧
      (∀ e ∈ [(⟨1, "10.0.0.1", "5555", 8080⟩ : LogEntry), ⟨3, "10.0.0.1", "5555", 8081⟩,
        ⟨2, "10.0.0.1", "5555", 8080⟩], e.Timestamp ≤ r.LastAccess) ∧
      ∃ e ∈ [(⟨1, "10.0.0.1", "5555", 8080⟩ : LogEntry), ⟨3, "10.0.0.1", "5555", 8081⟩,
        ⟨2, "10.0.0.1", "5555", 8080⟩], e.Timestamp = r.LastAccess :=
  buildReport_lastAccess_is_max
    [⟨1, "10.0.0.1", "5555", 8080⟩, ⟨3, "10.0.0.1", "5555", 8081⟩, ⟨2, "10.0.0.1", "5555", 8080⟩]
    (by decide) (by decide)

/-! ## buildReport: number of rows and sum of the counts -/

theorem tryCount_sum_mapSet (m : GoMap String ReportEntry) (k : String) (v : ReportEntry) :
    ((mapValues (mapSet m k v)).map (fun r => r.TryCount)).sum =
      ((mapValues m).map (fun r => r.TryCount)).sum
        - (match mapGet m k with
            | some old => old.TryCount
            | none => 0)
        + v.TryCount := by
  induction m with
  | nil => simp [mapSet, mapGet, mapValues]
  | cons hd tl ih =>
    obtain ⟨a, b⟩ := hd
    by_cases h : a = k
    · simp [mapSet, mapGet, mapValues, h]
      omega
    · simp only [mapValues] at ih
      simp only [mapSet, mapGet, mapValues, h, if_false, List.map_cons, List.sum_cons, ih]
      omega

theorem tryCount_sum_step (m : GoMap String ReportEntry) (e : LogEntry) :
    ((mapValues (buildReportStep m e)).map (fun r => r.TryCount)).sum =
      ((mapValues m).map (fun r => r.TryCount)).sum + 1 := by
  unfold buildReportStep
  simp only [tryCount_sum_mapSet]
  cases mapGet m (reportKey e) with
  | none => simp [touchEntry, newEntry]
  | some r0 => simp only [touchEntry]; omega

theorem tryCount_sum_fold (logs : List LogEntry) :
    ((mapValues (logs.foldl buildReportStep [])).map (fun r => r.TryCount)).sum =
      (logs.length : Int) := by
  induction logs using List.reverseRecOn with
  | nil => simp [mapValues]
  | append_singleton l e ih =>
    rw [List.foldl_append, List.foldl_cons, List.foldl_nil, tryCount_sum_step, ih]
    simp

theorem dedup_length_congr {α β γ : Type} [DecidableEq β] [DecidableEq γ]
    (f : α → β) (g : α → γ) (l : List α)
    (h : ∀ x ∈ l, ∀ y ∈ l, (f x = f y ↔ g x = g y)) :
    ((l.map f).dedup).length = ((l.map g).dedup).length := by
  induction l with
  | nil => simp
  | cons a t ih =>
    have ih' := ih (fun x hx y hy => h x (List.mem_cons_of_mem _ hx) y (List.mem_cons_of_mem _ hy))
    have hmem : f a ∈ t.map f ↔ g a ∈ t.map g := by
      simp only [List.mem_map]
      constructor
      · rintro ⟨y, hy, hfy⟩
        exact ⟨y, hy, (h y (List.mem_cons_of_mem _ hy) a (List.mem_cons_self _ _)).mp hfy⟩
      · rintro ⟨y, hy, hgy⟩
        exact ⟨y, hy, (h y (List.mem_cons_of_mem _ hy) a (List.mem_cons_self _ _)).mpr hgy⟩
    simp only [List.map_cons]
    by_cases hf : f a ∈ t.map f
    · rw [List.dedup_cons_of_mem hf, List.dedup_cons_of_mem (hmem.mp hf), ih']
    · rw [List.dedup_cons_of_not_mem hf, List.dedup_cons_of_not_mem (fun hg => hf (hmem.mpr hg))]
      simp [ih']

theorem buildReport_length_keys (logs : List LogEntry) :
    (buildReport logs).length = ((logs.map reportKey).dedup).length := by
  obtain ⟨hnd, hkeys, -⟩ := buildReport_loop logs
  have hperm : (mapKeys (logs.foldl buildReportStep [])).Perm (logs.map reportKey).dedup := by
    rw [List.perm_ext_iff_of_nodup hnd (List.nodup_dedup _)]
    intro k
    rw [hkeys k, List.mem_dedup, List.mem_map]
  have := hperm.length_eq
  simpa [buildReport, mapValues, mapKeys] using this

/-! ## buildReport: one row per client -/

theorem countP_key_eq_one {V : Type} (m : GoMap String V) (k : String)
    (hnd : (mapKeys m).Nodup) (hk : k ∈ mapKeys m) :
    m.countP (fun kv => decide (kv.1 = k)) = 1 := by
  have h1 : (mapKeys m).count k = 1 := List.count_eq_one_of_mem hnd hk
  rw [List.count, mapKeys, List.countP_map] at h1
  rw [← h1]
  apply List.countP_congr
  intro kv _
  simp

/-- On a log without a colon in a ClientPort, the report has exactly one row with the
ClientIP and ClientPort of a given log entry. -/
theorem buildReport_row_unique (logs : List LogEntry)
    (hcolon : ∀ e ∈ logs, ':' ∉ e.ClientPort.toList) (e : LogEntry) (he : e ∈ logs) :
    (buildReport logs).countP
      (fun r => decide (r.ClientIP = e.ClientIP ∧ r.ClientPort = e.ClientPort)) = 1 := by
  obtain ⟨hnd, hkeys, hgrp⟩ := buildReport_loop logs
  rw [buildReport, mapValues, List.countP_map,
    ← countP_key_eq_one _ (reportKey e) hnd ((hkeys _).mpr ⟨e, he, rfl⟩)]
  apply List.countP_congr
  rintro ⟨k, r⟩ hmem
  have hg := hgrp k r (mapGet_of_mem _ _ _ hnd hmem)
  have := groupOf_key_iff hcolon hg e he
  simp only [Function.comp, decide_eq_true_eq]
  constructor
  · rintro ⟨h1, h2⟩
    exact (this.mpr ⟨h1.symm, h2.symm⟩).symm
  · intro hk
    obtain ⟨h1, h2⟩ := this.mp hk.symm
    exact ⟨h1.symm, h2.symm⟩

/-- On a log without a colon in a ClientPort, every row of the report carries the
ClientIP and ClientPort of some log entry, and its TryCount is the number of log entries
with that ClientIP and ClientPort. -/
theorem buildReport_row_tryCount (logs : List LogEntry)
    (hcolon : ∀ e ∈ logs, ':' ∉ e.ClientPort.toList) (r : ReportEntry)
    (hr : r ∈ buildReport logs) :
    (∃ e ∈ logs, e.ClientIP = r.ClientIP ∧ e.ClientPort = r.ClientPort) ∧
    r.TryCount = ((logs.countP
      (fun e => decide (e.ClientIP = r.ClientIP ∧ e.ClientPort = r.ClientPort)) : Nat) : Int) := by
  obtain ⟨k, hg⟩ := groupOf_of_mem_buildReport logs r hr
  obtain ⟨e0, he0, -, hip, hport⟩ := hg.origin
  refine ⟨⟨e0, he0, hip.symm, hport.symm⟩, ?_⟩
  rw [hg.tries]
  congr 1
  apply List.countP_congr
  intro e he
  simp only [decide_eq_true_eq]
  exact groupOf_key_iff hcolon hg e he

/-- C10: when no ClientPort of the log holds a colon, the grouping key is injective on the
entries of the log: two entries get the same key exactly when their ClientIP and
ClientPort agree.  The rows follow the pairs: every entry has exactly one row with its
ClientIP and ClientPort, and the TryCount of every row is the number of entries with the
ClientIP and ClientPort of that row, so that two entries are counted into the same row
exactly when their ClientIP and ClientPort agree.  Hence the report has as many rows as
the log has distinct (ClientIP, ClientPort) pairs, and the TryCounts of its rows add up to
the length of the log. -/
theorem buildReport_key_injective_counts (logs : List LogEntry)
    (hcolon : ∀ e ∈ logs, ':' ∉ e.ClientPort.toList) :
    (∀ e1 ∈ logs, ∀ e2 ∈ logs,
      (reportKey e1 = reportKey e2 ↔
        e1.ClientIP = e2.ClientIP ∧ e1.ClientPort = e2.ClientPort)) ∧
    (∀ e ∈ logs, (buildReport logs).countP
      (fun r => decide (r.ClientIP = e.ClientIP ∧ r.ClientPort = e.ClientPort)) = 1) ∧
    (∀ r ∈ buildReport logs,
      r.TryCount = ((logs.countP
        (fun e => decide (e.ClientIP = r.ClientIP ∧ e.ClientPort = r.ClientPort)) : Nat) : Int)) ∧
    (buildReport logs).length =
      ((logs.map (fun e => (e.ClientIP, e.ClientPort))).dedup).length ∧
    ((buildReport logs).map (fun r => r.TryCount)).sum = (logs.length : Int) := by
  have hinj : ∀ e1 ∈ logs, ∀ e2 ∈ logs,
      (reportKey e1 = reportKey e2 ↔
        e1.ClientIP = e2.ClientIP ∧ e1.ClientPort = e2.ClientPort) := by
    intro e1 h1 e2 h2
    exact ⟨reportKey_inj e1 e2 (hcolon e1 h1) (hcolon e2 h2),
      fun h => reportKey_congr e1 e2 h.1 h.2⟩
  refine ⟨hinj, buildReport_row_unique logs hcolon,
    fun r hr => (buildReport_row_tryCount logs hcolon r hr).2, ?_, tryCount_sum_fold logs⟩
  rw [buildReport_length_keys]
  apply dedup_length_congr
  intro x hx y hy
  rw [hinj x hx y hy]
  simp [Prod.ext_iff]

theorem buildReport_key_injective_counts_witness :
    (∀ e1 ∈ [(⟨1, "10.0.0.1", "5555", 8080⟩ : LogEntry), ⟨3, "::1", "5555", 8081⟩,
        ⟨2, "10.0.0.1", "5555", 8081⟩, ⟨4, "::1", "5555", 8080⟩, ⟨5, "::1", "5555", 8081⟩],
      ∀ e2 ∈ [(⟨1, "10.0.0.1", "5555", 8080⟩ : LogEntry), ⟨3, "::1", "5555", 8081⟩,
        ⟨2, "10.0.0.1", "5555", 8081⟩, ⟨4, "::1", "5555", 8080⟩, ⟨5, "::1", "5555", 8081⟩],
      (reportKey e1 = reportKey e2 ↔
        e1.ClientIP = e2.ClientIP ∧ e1.ClientPort = e2.ClientPort)) ∧
    (∀ e ∈ [(⟨1, "10.0.0.1", "5555", 8080⟩ : LogEntry), ⟨3, "::1", "5555", 8081⟩,
        ⟨2, "10.0.0.1", "5555", 8081⟩, ⟨4, "::1", "5555", 8080⟩, ⟨5, "::1", "5555", 8081⟩],
      (buildReport [⟨1, "10.0.0.1", "5555", 8080⟩, ⟨3, "::1", "5555", 8081⟩,
        ⟨2, "10.0.0.1", "5555", 8081⟩, ⟨4, "::1", "5555", 8080⟩,
        ⟨5, "::1", "5555", 8081⟩]).countP
      (fun r => decide (r.ClientIP = e.ClientIP ∧ r.ClientPort = e.ClientPort)) = 1) ∧
    (∀ r ∈ buildReport [⟨1, "10.0.0.1", "5555", 8080⟩, ⟨3, "::1", "5555", 8081⟩,
        ⟨2, "10.0.0.1", "5555", 8081⟩, ⟨4, "::1", "5555", 8080⟩, ⟨5, "::1", "5555", 8081⟩],
      r.TryCount = (([(⟨1, "10.0.0.1", "5555", 8080⟩ : LogEntry), ⟨3, "::1", "5555", 8081⟩,
        ⟨2, "10.0.0.1", "5555", 8081⟩, ⟨4, "::1", "5555", 8080⟩,
        ⟨5, "::1", "5555", 8081⟩].countP
        (fun e => decide (e.ClientIP = r.ClientIP ∧ e.ClientPort = r.ClientPort)) : Nat) : Int)) ∧
    (buildReport [⟨1, "10.0.0.1", "5555", 8080⟩, ⟨3, "::1", "5555", 8081⟩,
        ⟨2, "10.0.0.1", "5555", 8081⟩, ⟨4, "::1", "5555", 8080⟩,
        ⟨5, "::1", "5555", 8081⟩]).length =
      (([(⟨1, "10.0.0.1", "5555", 8080⟩ : LogEntry), ⟨3, "::1", "5555", 8081⟩,
        ⟨2, "10.0.0.1", "5555", 8081⟩, ⟨4, "::1", "5555", 8080⟩,
        ⟨5, "::1", "5555", 8081⟩].map (fun e => (e.ClientIP, e.ClientPort))).dedup).length ∧
    ((buildReport [⟨1, "10.0.0.1", "5555", 8080⟩, ⟨3, "::1", "5555", 8081⟩,
        ⟨2, "10.0.0.1", "5555", 8081⟩, ⟨4, "::1", "5555", 8080⟩,
        ⟨5, "::1", "5555", 8081⟩]).map (fun r => r.TryCount)).sum =
      (([(⟨1, "10.0.0.1", "5555", 8080⟩ : LogEntry), ⟨3, "::1", "5555", 8081⟩,
        ⟨2, "10.0.0.1", "5555", 8081⟩, ⟨4, "::1", "5555", 8080⟩,
        ⟨5, "::1", "5555", 8081⟩]).length : Int) :=
  buildReport_key_injective_counts
    [⟨1, "10.0.0.1", "5555", 8080⟩, ⟨3, "::1", "5555", 8081⟩, ⟨2, "10.0.0.1", "5555", 8081⟩,
     ⟨4, "::1", "5555", 8080⟩, ⟨5, "::1", "5555", 8081⟩]
    (by decide)

/-- C1 (as stated) fails: two log entries of two distinct clients whose ClientIP and
ClientPort concatenate to the same key give a report of one row with TryCount 2, although
only one entry of the log has that row's ClientIP and ClientPort. -/
theorem buildReport_pairs_counterexample :
    buildReport [⟨5, "10.0.0.1:80", "443", 8080⟩, ⟨7, "10.0.0.1", "80:443", 8081⟩] =
      [⟨"10.0.0.1:80", "443", 7, 2, [(8080, true), (8081, true)]⟩] ∧
    ([(⟨5, "10.0.0.1:80", "443", 8080⟩ : LogEntry), ⟨7, "10.0.0.1", "80:443", 8081⟩].countP
      (fun e => decide (e.ClientIP = "10.0.0.1:80" ∧ e.ClientPort = "443"))) = 1 ∧
    (([(⟨5, "10.0.0.1:80", "443", 8080⟩ : LogEntry), ⟨7, "10.0.0.1", "80:443", 8081⟩].map
      (fun e => (e.ClientIP, e.ClientPort))).dedup).length = 2 := by
  decide

/-- C1 (amended): when no ClientPort of the log holds a colon, the report has exactly one
row for the (ClientIP, ClientPort) pair of every log entry, every row carries the pair of
some log entry, and the TryCount of a row is the number of log entries whose ClientIP and
ClientPort both equal the row's. -/
theorem buildReport_one_row_per_pair (logs : List LogEntry)
    (hcolon : ∀ e ∈ logs, ':' ∉ e.ClientPort.toList) :
    (∀ e ∈ logs, (buildReport logs).countP
      (fun r => decide (r.ClientIP = e.ClientIP ∧ r.ClientPort = e.ClientPort)) = 1) ∧
    (∀ r ∈ buildReport logs,
      (∃ e ∈ logs, e.ClientIP = r.ClientIP ∧ e.ClientPort = r.ClientPort) ∧
      r.TryCount = ((logs.countP
        (fun e => decide (e.ClientIP = r.ClientIP ∧ e.ClientPort = r.ClientPort)) : Nat) : Int)) :=
  ⟨buildReport_row_unique logs hcolon, buildReport_row_tryCount logs hcolon⟩

theorem buildReport_one_row_per_pair_witness :
    (∀ e ∈ [(⟨1, "10.0.0.1", "5555", 8080⟩ : LogEntry), ⟨3, "::1", "5555", 8081⟩,
        ⟨2, "10.0.0.1", "5555", 8081⟩],
      (buildReport [⟨1, "10.0.0.1", "5555", 8080⟩, ⟨3, "::1", "5555", 8081⟩,
        ⟨2, "10.0.0.1", "5555", 8081⟩]).countP
      (fun r => decide (r.ClientIP = e.ClientIP ∧ r.ClientPort = e.ClientPort)) = 1) ∧
    (∀ r ∈ buildReport [⟨1, "10.0.0.1", "5555", 8080⟩, ⟨3, "::1", "5555", 8081⟩,
        ⟨2, "10.0.0.1", "5555", 8081⟩],
      (∃ e ∈ [(⟨1, "10.0.0.1", "5555", 8080⟩ : LogEntry), ⟨3, "::1", "5555", 8081⟩,
        ⟨2, "10.0.0.1", "5555", 8081⟩], e.ClientIP = r.ClientIP ∧ e.ClientPort = r.ClientPort) ∧
      r.TryCount = (([(⟨1, "10.0.0.1", "5555", 8080⟩ : LogEntry), ⟨3, "::1", "5555", 8081⟩,
        ⟨2, "10.0.0.1", "5555", 8081⟩].countP
        (fun e => decide (e.ClientIP = r.ClientIP ∧ e.ClientPort = r.ClientPort)) : Nat) : Int)) :=
  buildReport_one_row_per_pair
    [⟨1, "10.0.0.1", "5555", 8080⟩, ⟨3, "::1", "5555", 8081⟩, ⟨2, "10.0.0.1", "5555", 8081⟩]
    (by decide)

/-! ## startServer: the body written by the handler -/

/-- Where the handler does write the configured text: a text without a percent sign is
copied to the body unchanged. -/
theorem handlerBody_of_no_percent (config : ServerConfig)
    (h : '%' ∉ config.Text.toList) : handlerBody config = config.Text := by
  have h1 : config.Text.toList.takeWhile (fun c => c != '%') = config.Text.toList := by
    rw [List.takeWhile_eq_self_iff]
    intro c hc
    simp only [bne_iff_ne, ne_eq]
    intro e; subst e; exact h hc
  have h2 : config.Text.toList.dropWhile (fun c => c != '%') = [] := by
    rw [List.dropWhile_eq_nil_iff]
    intro c hc
    simp only [bne_iff_ne, ne_eq]
    intro e; subst e; exact h hc
  simp only [handlerBody, fmt_Fprintf, doPrintfLoop, h1, h2, List.nil_append]
  rfl

/-- C8 fails on the code: the handler passes the configured text to `fmt.Fprintf` as the
format, so for the text "100%" the body written is "100%!(NOVERB)", not the text. -/
theorem handlerBody_percent_mangled :
    handlerBody { Port := 8080, Text := "100%" } = "100%!(NOVERB)" ∧
    handlerBody { Port := 8080, Text := "100%" } ≠ "100%" ∧
    handlerBody { Port := 8081, Text := "50% off" } = "50%!o(MISSING)ff" := by
  decide

namespace Client

/-! ## checkPort -/

/-- C4: whatever the outcome of the request, `checkPort` sends exactly one result, which
carries the probed IP and port unchanged; its status is "open" exactly when the request
returned no error and the status code is 200, and "closed" in every other case. -/
theorem checkPort_open_iff (get : String → Except String Response) (ip : String)
    (port : Int) (results : List TestResult) :
    ∃ status, checkPort get ip port results
        = results ++ [{ IP := ip, Port := port, Status := status }] ∧
      (status = "open" ↔
        ∃ resp, get ("http://" ++ ip ++ ":" ++ toString port) = .ok resp ∧
          resp.StatusCode = 200) ∧
      (status ≠ "open" → status = "closed") := by
  unfold checkPort
  cases hget : get ("http://" ++ ip ++ ":" ++ toString port) with
  | error err =>
    refine ⟨"closed", by simp [hget], ?_, fun _ => rfl⟩
    constructor
    · intro h; exact absurd h (by decide)
    · rintro ⟨resp, h, -⟩; exact Except.noConfusion h
  | ok resp =>
    by_cases hs : resp.StatusCode = StatusOK
    · refine ⟨"open", by simp [hget, hs], ?_, fun h => absurd rfl h⟩
      exact ⟨fun _ => ⟨resp, rfl, hs⟩, fun _ => rfl⟩
    · refine ⟨"closed", by simp [hget, hs], ?_, fun _ => rfl⟩
      constructor
      · intro h; exact absurd h (by decide)
      · rintro ⟨resp2, h, h2⟩
        cases h
        exact absurd h2 hs

end Client

namespace Client

/-! ## validateServersCSV -/

theorem validateServersLoop_short (parseIP : String → Bool) (i : Nat)
    (record : List String) (rest : List (List String)) (h : record.length < 2) :
    validateServersLoop parseIP i (record :: rest) = some (.invalidFormat (i + 1)) := by
  simp [validateServersLoop, h]

theorem validateServersLoop_badIP (parseIP : String → Bool) (i : Nat)
    (a b : String) (tl : List String) (rest : List (List String)) (h : parseIP a = false) :
    validateServersLoop parseIP i ((a :: b :: tl) :: rest) = some (.invalidIP (i + 1) a) := by
  have hlen : ¬ (tl.length + 1 + 1 < 2) := by omega
  simp [validateServersLoop, hlen, h]

theorem validateServersLoop_badPort (parseIP : String → Bool) (i : Nat)
    (a b : String) (tl : List String) (rest : List (List String)) (h : parseIP a = true)
    (err : NumError) (hp : (strconv_Atoi b).2 = some err) :
    validateServersLoop parseIP i ((a :: b :: tl) :: rest)
      = some (.invalidPort (i + 1) err) := by
  have hlen : ¬ (tl.length + 1 + 1 < 2) := by omega
  simp [validateServersLoop, hlen, h, hp]

theorem validateServersLoop_next (parseIP : String → Bool) (i : Nat)
    (a b : String) (tl : List String) (rest : List (List String)) (h : parseIP a = true)
    (hp : (strconv_Atoi b).2 = none) :
    validateServersLoop parseIP i ((a :: b :: tl) :: rest)
      = validateServersLoop parseIP (i + 1) rest := by
  have hlen : ¬ (tl.length + 1 + 1 < 2) := by omega
  simp [validateServersLoop, hlen, h, hp]

theorem rowValid_two (parseIP : String → Bool) (a b : String) (tl : List String) :
    rowValid parseIP (a :: b :: tl) ↔ parseIP a = true ∧ (strconv_Atoi b).2 = none := by
  simp [rowValid]

theorem not_rowValid_short (parseIP : String → Bool) (record : List String)
    (h : record.length < 2) : ¬ rowValid parseIP record := by
  intro hv
  have := hv.1
  omega

/-- One round of the loop: a row that breaks a condition ends it with an error citing
`i + 1`; a valid row passes on to the rest with the next index. -/
theorem validateServersLoop_cons (parseIP : String → Bool) (i : Nat)
    (record : List String) (rest : List (List String)) :
    (rowValid parseIP record ∧
      validateServersLoop parseIP i (record :: rest)
        = validateServersLoop parseIP (i + 1) rest) ∨
    (¬ rowValid parseIP record ∧
      ∃ e, validateServersLoop parseIP i (record :: rest) = some e ∧ e.line = i + 1) := by
  match record with
  | [] => exact Or.inr ⟨not_rowValid_short _ _ (by simp),
      _, validateServersLoop_short _ _ _ _ (by simp), rfl⟩
  | [a] => exact Or.inr ⟨not_rowValid_short _ _ (by simp),
      _, validateServersLoop_short _ _ _ _ (by simp), rfl⟩
  | a :: b :: tl =>
    rw [rowValid_two]
    cases hip : parseIP a with
    | false =>
      exact Or.inr ⟨by simp, _, validateServersLoop_badIP _ _ _ _ _ _ hip, rfl⟩
    | true =>
      cases hport : (strconv_Atoi b).2 with
      | some err =>
        exact Or.inr ⟨by simp, _, validateServersLoop_badPort _ _ _ _ _ _ hip err hport, rfl⟩
      | none =>
        exact Or.inl ⟨⟨rfl, rfl⟩, validateServersLoop_next _ _ _ _ _ _ hip hport⟩

theorem validateServersLoop_none_iff (parseIP : String → Bool) (records : List (List String))
    (i : Nat) :
    validateServersLoop parseIP i records = none ↔ ∀ r ∈ records, rowValid parseIP r := by
  induction records generalizing i with
  | nil => simp [validateServersLoop]
  | cons record rest ih =>
    rcases validateServersLoop_cons parseIP i record rest with ⟨hv, heq⟩ | ⟨hnv, e, heq, -⟩
    · rw [heq, ih (i + 1)]
      simp [hv]
    · rw [heq]
      simp [hnv]

theorem validateServersLoop_first_bad (parseIP : String → Bool)
    (records : List (List String)) (i k : Nat) (hk : k < records.length)
    (hbad : ¬ rowValid parseIP (records.get ⟨k, hk⟩))
    (hgood : ∀ j (hj : j < k), rowValid parseIP (records.get ⟨j, Nat.lt_trans hj hk⟩)) :
    ∃ e, validateServersLoop parseIP i records = some e ∧ e.line = i + k + 1 := by
  induction records generalizing i k with
  | nil => simp at hk
  | cons record rest ih =>
    rcases validateServersLoop_cons parseIP i record rest with ⟨hv, heq⟩ | ⟨hnv, e, heq, hl⟩
    · cases k with
      | zero => exact absurd hv hbad
      | succ k' =>
        rw [heq]
        have hk' : k' < rest.length := by simpa using hk
        obtain ⟨e, he, hl⟩ := ih (i + 1) k' hk' (by simpa using hbad)
          (fun j hj => by simpa using hgood (j + 1) (by omega))
        exact ⟨e, he, by omega⟩
    · cases k with
      | zero => exact ⟨e, heq, by omega⟩
      | succ k' => exact absurd (by simpa using hgood 0 (by omega)) hnv

/-- C6: `validateServersCSV` succeeds exactly when every row has at least two fields, a
first field that parses as an IP literal and a second field that parses as an integer;
and when the row of 0-based index `i` is the first to break one of these conditions, it
fails with a format error that cites the line number `i + 1`. -/
theorem validateServersCSV_spec (parseIP : String → Bool) (records : List (List String)) :
    (validateServersCSV parseIP records = none ↔ ∀ r ∈ records, rowValid parseIP r) ∧
    (∀ i (hi : i < records.length),
      ¬ rowValid parseIP (records.get ⟨i, hi⟩) →
      (∀ j (hj : j < i), rowValid parseIP (records.get ⟨j, Nat.lt_trans hj hi⟩)) →
      ∃ e, validateServersCSV parseIP records = some e ∧ e.line = i + 1) := by
  refine ⟨validateServersLoop_none_iff parseIP records 0, ?_⟩
  intro i hi hbad hgood
  obtain ⟨e, he, hl⟩ := validateServersLoop_first_bad parseIP records 0 i hi hbad hgood
  exact ⟨e, he, by omega⟩

end Client

/-! ## strconv.Atoi -/

theorem digitVal_le (c : Char) (d : Nat) (h : digitVal c = some d) : d ≤ 9 := by
  unfold digitVal at h
  split at h
  · cases h; omega
  · cases h

theorem foldl_digits_none (l : List Char) :
    l.foldl (fun acc c => acc.bind (fun n => (digitVal c).map (fun d => n * 10 + d))) none
      = none := by
  induction l with
  | nil => rfl
  | cons c rest ih => simpa using ih

theorem atoiDigits_eq_foldl (l : List Char) (n : Nat) :
    atoiDigits l n =
      l.foldl (fun acc c => acc.bind (fun n => (digitVal c).map (fun d => n * 10 + d)))
        (some n) := by
  induction l generalizing n with
  | nil => rfl
  | cons c rest ih =>
    cases hd : digitVal c with
    | none => simp [atoiDigits, hd, foldl_digits_none]
    | some d => simp [atoiDigits, hd, ih]

theorem parseUintLoop_ok (l : List Char) (n v : Nat)
    (h : parseUintLoop l n = (v, none)) : atoiDigits l n = some v := by
  induction l generalizing n with
  | nil =>
    simp [parseUintLoop] at h
    simp [atoiDigits, h]
  | cons c rest ih =>
    cases hd : digitVal c with
    | none => simp [parseUintLoop, hd] at h
    | some d =>
      have hd9 := digitVal_le c d hd
      simp only [parseUintLoop, hd] at h
      split at h
      · simp at h
      · rename_i hcut
        split at h
        · simp at h
        · rename_i hwrap
          have hmod : (n * 10 + d) % 2 ^ 64 = n * 10 + d := by
            apply Nat.mod_eq_of_lt
            norm_num at hcut hwrap ⊢
            omega
          rw [hmod] at h
          simp only [atoiDigits, hd]
          exact ih _ h

theorem parseUintLoop_range (l : List Char) (n v : Nat)
    (h : parseUintLoop l n = (v, some .rangeError)) : v = 2 ^ 64 - 1 := by
  induction l generalizing n with
  | nil => simp [parseUintLoop] at h
  | cons c rest ih =>
    cases hd : digitVal c with
    | none => simp [parseUintLoop, hd] at h
    | some d =>
      simp only [parseUintLoop, hd] at h
      split at h
      · simp at h; omega
      · split at h
        · simp at h; omega
        · exact ih _ h

theorem toList_ne_nil_of_byteSize (s : String) (h : 0 < s.utf8ByteSize) : s.toList ≠ [] := by
  intro hnil
  have : s = "" := String.ext (by simpa using hnil)
  subst this
  simp [String.utf8ByteSize, String.utf8ByteSize.go] at h

/-- What the fast path returns: a syntax error with 0, or the value the numeral denotes. -/
theorem atoiFast_cases (s0 : List Char) (hne : s0 ≠ []) :
    atoiFast s0 = (0, some .syntaxError) ∨
    ∃ n : Nat, atoiFast s0 = ((if s0.head? = some '-' then -(n : Int) else (n : Int)), none) ∧
      (if s0.head? = some '-' ∨ s0.head? = some '+' then s0.tail else s0) ≠ [] ∧
      decimalValue (if s0.head? = some '-' ∨ s0.head? = some '+' then s0.tail else s0)
        = some n := by
  unfold atoiFast
  simp only []
  generalize hS : (if s0.head? = some '-' ∨ s0.head? = some '+' then s0.tail else s0) = s
  by_cases hlen : (s0.head? = some '-' ∨ s0.head? = some '+') ∧ s.length < 1
  · left
    rw [if_pos hlen]
  · rw [if_neg hlen]
    cases hdig : atoiDigits s 0 with
    | none => exact Or.inl rfl
    | some n =>
      right
      refine ⟨n, rfl, ?_, ?_⟩
      · by_cases hs : s0.head? = some '-' ∨ s0.head? = some '+'
        · intro hnil
          apply hlen
          exact ⟨hs, by simp [hnil]⟩
        · rw [if_neg hs] at hS
          rw [← hS]; exact hne
      · unfold decimalValue
        rw [← atoiDigits_eq_foldl]
        exact hdig

theorem parseInt_cases (s0 : List Char) :
    parseInt s0 = (0, some .syntaxError) ∨
    parseInt s0 = (2 ^ 63 - 1, some .rangeError) ∨
    parseInt s0 = (-(2 ^ 63), some .rangeError) ∨
    ∃ n : Nat, parseInt s0 = ((if s0.head? = some '-' then -(n : Int) else (n : Int)), none) ∧
      (if s0.head? = some '-' ∨ s0.head? = some '+' then s0.tail else s0) ≠ [] ∧
      decimalValue (if s0.head? = some '-' ∨ s0.head? = some '+' then s0.tail else s0)
        = some n := by
  have hswap : (if s0.head? = some '+' ∨ s0.head? = some '-' then s0.tail else s0)
      = (if s0.head? = some '-' ∨ s0.head? = some '+' then s0.tail else s0) := by
    by_cases h1 : s0.head? = some '-' <;> by_cases h2 : s0.head? = some '+' <;> simp [h1, h2]
  unfold parseInt
  by_cases h0 : s0 = []
  · left; rw [if_pos h0]
  · rw [if_neg h0]
    simp only []
    rw [hswap]
    generalize (if s0.head? = some '-' ∨ s0.head? = some '+' then s0.tail else s0) = s
    unfold parseUint
    by_cases hs : s = []
    · left; simp [hs]
    · rw [if_neg hs]
      rcases hres : parseUintLoop s 0 with ⟨un, e⟩
      cases e with
      | some err =>
        cases err with
        | syntaxError => left; rfl
        | rangeError =>
          have hun := parseUintLoop_range s 0 un hres
          subst hun
          by_cases hneg : s0.head? = some '-'
          · right; right; left
            simp [hneg]
          · right; left
            simp [hneg]
      | none =>
        simp only []
        by_cases h1 : ¬ (s0.head? = some '-') ∧ un ≥ 2 ^ 63
        · right; left; rw [if_pos h1]
        · rw [if_neg h1]
          by_cases h2 : s0.head? = some '-' ∧ un > 2 ^ 63
          · right; right; left; rw [if_pos h2]
          · rw [if_neg h2]
            right; right; right
            refine ⟨un, rfl, hs, ?_⟩
            unfold decimalValue
            rw [← atoiDigits_eq_foldl]
            exact parseUintLoop_ok s 0 un hres

/-- What `strconv.Atoi` returns: 0 with a syntax error, a bound of `int` with a range
error, or without an error the integer the text denotes. -/
theorem strconv_Atoi_cases (s : String) :
    strconv_Atoi s = (0, some .syntaxError) ∨
    strconv_Atoi s = (2 ^ 63 - 1, some .rangeError) ∨
    strconv_Atoi s = (-(2 ^ 63), some .rangeError) ∨
    ((strconv_Atoi s).2 = none ∧ denotedInt s = some (strconv_Atoi s).1) := by
  unfold strconv_Atoi
  simp only []
  by_cases hlen : 0 < s.utf8ByteSize ∧ s.utf8ByteSize < 19
  · rw [if_pos hlen]
    rcases atoiFast_cases s.toList (toList_ne_nil_of_byteSize s hlen.1) with h | ⟨n, h, hne, hv⟩
    · exact Or.inl h
    · right; right; right
      rw [h]
      refine ⟨rfl, ?_⟩
      unfold denotedInt
      simp only []
      rw [if_neg hne, hv]
      rfl
  · rw [if_neg hlen]
    rcases parseInt_cases s.toList with h | h | h | ⟨n, h, hne, hv⟩
    · exact Or.inl h
    · exact Or.inr (Or.inl h)
    · exact Or.inr (Or.inr (Or.inl h))
    · right; right; right
      rw [h]
      refine ⟨rfl, ?_⟩
      unfold denotedInt
      simp only []
      rw [if_neg hne, hv]
      rfl

theorem strconv_Atoi_syntax_zero (s : String) (h : (strconv_Atoi s).2 = some .syntaxError) :
    (strconv_Atoi s).1 = 0 := by
  rcases strconv_Atoi_cases s with h' | h' | h' | ⟨h', -⟩
  · rw [h']
  · rw [h'] at h; simp at h
  · rw [h'] at h; simp at h
  · rw [h'] at h; simp at h

theorem strconv_Atoi_denoted (s : String) (h : (strconv_Atoi s).2 = none) :
    denotedInt s = some (strconv_Atoi s).1 := by
  rcases strconv_Atoi_cases s with h' | h' | h' | ⟨-, h'⟩
  · rw [h'] at h; simp at h
  · rw [h'] at h; simp at h
  · rw [h'] at h; simp at h
  · exact h'

/-! ## readLog -/

theorem goIndex_of_lt (record : List String) (i : Nat) (h : i < record.length) :
    goIndex record i = .ok (record.getD i "") := by
  unfold goIndex
  rw [dif_pos h]
  congr 1
  rw [List.getD_eq_getElem _ _ h]
  rfl

namespace Client

/-! ## readServersCSV -/

theorem readServersLoop_ok (records : List (List String)) (servers : List ServerConfig)
    (h : ∀ r ∈ records, 2 ≤ r.length) :
    readServersLoop records servers = .ok (servers ++ records.map configOfRecord) := by
  induction records generalizing servers with
  | nil => simp [readServersLoop]
  | cons record rest ih =>
    have hlen := h record (List.mem_cons_self _ _)
    have ih' := ih (servers ++ [configOfRecord record])
      (fun r hr => h r (List.mem_cons_of_mem _ hr))
    simp only [readServersLoop, goIndex_of_lt record 0 (by omega),
      goIndex_of_lt record 1 (by omega)]
    simp only [bind, Except.bind]
    simpa [configOfRecord] using ih'

/-- C7: on rows that `validateServersCSV` accepts, `readServersCSV` returns, without an
index out of range, one `ServerConfig` per row in file order; the i-th has the first field
of row i as IP, and as Port the integer that the second field of row i denotes, `Atoi`
having returned no error for it. -/
theorem readServersCSV_of_validated (parseIP : String → Bool)
    (records : List (List String)) (hvalid : validateServersCSV parseIP records = none) :
    ∃ servers, readServersCSV records = .ok servers ∧
      servers.length = records.length ∧
      ∀ i (hr : i < records.length) (hs : i < servers.length),
        2 ≤ (records.get ⟨i, hr⟩).length ∧
        (servers.get ⟨i, hs⟩).IP = (records.get ⟨i, hr⟩).getD 0 "" ∧
        (strconv_Atoi ((records.get ⟨i, hr⟩).getD 1 "")).2 = none ∧
        (servers.get ⟨i, hs⟩).Port = (strconv_Atoi ((records.get ⟨i, hr⟩).getD 1 "")).1 ∧
        denotedInt ((records.get ⟨i, hr⟩).getD 1 "") = some (servers.get ⟨i, hs⟩).Port := by
  have hall := (validateServersLoop_none_iff parseIP records 0).mp hvalid
  refine ⟨records.map configOfRecord, ?_, by simp, ?_⟩
  · simpa [readServersCSV] using readServersLoop_ok records [] (fun r hr => (hall r hr).1)
  · intro i hr hs
    have hget : (records.map configOfRecord).get ⟨i, hs⟩
        = configOfRecord (records.get ⟨i, hr⟩) := by
      simp
    rw [hget]
    have hrow := hall (records.get ⟨i, hr⟩) (List.get_mem _ _ _)
    exact ⟨hrow.1, rfl, hrow.2.2, rfl, strconv_Atoi_denoted _ hrow.2.2⟩

theorem readServersCSV_of_validated_witness :
    ∃ servers, readServersCSV [["127.0.0.1", "8080"], ["192.168.1.10", "8081"]] = .ok servers ∧
      servers.length = [["127.0.0.1", "8080"], ["192.168.1.10", "8081"]].length :=
  (readServersCSV_of_validated (fun s => s = "127.0.0.1" || s = "192.168.1.10")
    [["127.0.0.1", "8080"], ["192.168.1.10", "8081"]] (by decide)).imp
    (fun _ h => ⟨h.1, h.2.1⟩)

end Client

/-! ## fmt.Fprintf: the fuel of the loop -/

theorem parsenumLoop_length (l : List Char) (n : Nat) (b : Bool) :
    (parsenumLoop l n b).2.2.length ≤ l.length := by
  induction l generalizing n b with
  | nil => simp [parsenumLoop]
  | cons c rest ih =>
    cases hd : digitVal c with
    | none => simp [parsenumLoop, hd]
    | some d =>
      simp only [parsenumLoop, hd]
      split
      · simp
      · exact Nat.le_succ_of_le (ih _ _)

theorem parsenum_length (l : List Char) : (parsenum l).2.2.length ≤ l.length :=
  parsenumLoop_length l 0 false

theorem dropWhile_length_le (p : Char → Bool) (l : List Char) :
    (l.dropWhile p).length ≤ l.length := by
  induction l with
  | nil => simp
  | cons c rest ih =>
    simp only [List.dropWhile_cons]
    split
    · exact Nat.le_succ_of_le ih
    · exact Nat.le_refl _

theorem argNumber_length (l : List Char) : (argNumber l).1.length ≤ l.length := by
  unfold argNumber
  split
  · rename_i rest
    have h1 : (rest.dropWhile (fun c => c != ']')).tail.length ≤ rest.length := by
      rw [List.length_tail]
      exact Nat.le_trans (Nat.sub_le _ _) (dropWhile_length_le _ _)
    have h2 := dropWhile_length_le (fun c => c != ']') rest
    split
    · simp
    · split
      · simp only []
        split <;> simp <;> omega
      · simp
  · exact Nat.le_refl _

theorem doWidth_length (s : List Char) (a g : Bool) : (doWidth s a g).1.length ≤ s.length := by
  unfold doWidth
  split
  · simp
  · exact parsenum_length s

theorem doPrecision_length (s out : List Char) (a g : Bool) :
    (doPrecision s out a g).1.length ≤ s.length := by
  unfold doPrecision
  split
  · rename_i rest
    have h := argNumber_length rest
    split
    · rename_i r2 heq
      rw [heq] at h
      simp at h ⊢
      omega
    · have h2 := parsenum_length (argNumber rest).1
      simp only [List.length_cons]
      omega
  · exact Nat.le_refl _

theorem doLastIndex_length (s : List Char) (a g : Bool) :
    (doLastIndex s a g).1.length ≤ s.length := by
  unfold doLastIndex
  split
  · exact Nat.le_refl _
  · exact argNumber_length s

theorem doVerb_length (s out : List Char) (g : Bool) (w rest : List Char)
    (h : doVerb s out g = (w, some rest)) : rest.length < s.length := by
  unfold doVerb at h
  split at h
  · simp at h
  · split at h
    · simp at h; simp [← h.2]
    · split at h <;> (simp at h; simp [← h.2])

/-- A directive that does not end the loop leaves less of the format than it was given. -/
theorem doDirective_length (l w rest : List Char) (h : doDirective l = (w, some rest)) :
    rest.length < l.length := by
  unfold doDirective at h
  simp only [] at h
  refine Nat.lt_of_lt_of_le (doVerb_length _ _ _ _ _ h) ?_
  refine Nat.le_trans (doLastIndex_length _ _ _) ?_
  refine Nat.le_trans (doPrecision_length _ _ _ _) ?_
  refine Nat.le_trans (doWidth_length _ _ _) ?_
  exact Nat.le_trans (argNumber_length _) (dropWhile_length_le isFlag l)

/-- Any fuel above the length of the format gives the same text: the loop always ends
because the format is used up, never because the fuel is. -/
theorem doPrintfLoop_fuel (fuel : Nat) :
    ∀ (fuel2 : Nat) (format out : List Char), format.length < fuel → format.length < fuel2 →
      doPrintfLoop fuel format out = doPrintfLoop fuel2 format out := by
  induction fuel with
  | zero => intro fuel2 format out h; omega
  | succ f ih =>
    intro fuel2 format out h1 h2
    cases fuel2 with
    | zero => omega
    | succ f2 =>
      simp only [doPrintfLoop]
      have hdrop := dropWhile_length_le (fun c => c != '%') format
      cases hd : format.dropWhile (fun c => c != '%') with
      | nil => rfl
      | cons c afterPercent =>
        rw [hd] at hdrop
        simp only [List.length_cons] at hdrop
        rcases hdir : doDirective afterPercent with ⟨written, next⟩
        cases next with
        | none => simp only [hdir]
        | some rest =>
          have hlt := doDirective_length _ _ _ hdir
          simp only [hdir]
          exact ih f2 rest _ (by omega) (by omega)

theorem atoiFast_no_range (s0 : List Char) : (atoiFast s0).2 ≠ some .rangeError := by
  unfold atoiFast
  simp only []
  generalize (if s0.head? = some '-' ∨ s0.head? = some '+' then s0.tail else s0) = s
  by_cases hlen : (s0.head? = some '-' ∨ s0.head? = some '+') ∧ s.length < 1
  · rw [if_pos hlen]; simp
  · rw [if_neg hlen]
    cases atoiDigits s 0 <;> simp

/-- A range error of `ParseInt` comes with the bound of `int` on the side of the sign the
text starts with. -/
theorem parseInt_range_sign (s0 : List Char) (h : (parseInt s0).2 = some .rangeError) :
    (parseInt s0).1 = if s0.head? = some '-' then -(2 ^ 63) else 2 ^ 63 - 1 := by
  unfold parseInt at h ⊢
  by_cases h0 : s0 = []
  · rw [if_pos h0] at h; simp at h
  · rw [if_neg h0] at h ⊢
    simp only [] at h ⊢
    generalize (if s0.head? = some '+' ∨ s0.head? = some '-' then s0.tail else s0) = s at h ⊢
    rcases hres : parseUint s with ⟨un, e⟩
    rw [hres] at h
    cases e with
    | some err =>
      cases err with
      | syntaxError => simp at h
      | rangeError =>
        simp only [] at h ⊢
        by_cases hneg : s0.head? = some '-'
        · simp only [hneg, not_true_eq_false, false_and, if_false, true_and, if_true] at h ⊢
          split at h
          · rename_i hc; rw [if_pos hc]
          · simp at h
        · simp only [hneg, not_false_eq_true, true_and, false_and, if_false] at h ⊢
          split at h
          · rename_i hc; rw [if_pos hc]
          · simp at h
    | none =>
      simp only [] at h ⊢
      by_cases hneg : s0.head? = some '-'
      · simp only [hneg, not_true_eq_false, false_and, if_false, true_and, if_true] at h ⊢
        split at h
        · rename_i hc; rw [if_pos hc]
        · simp at h
      · simp only [hneg, not_false_eq_true, true_and, false_and, if_false] at h ⊢
        split at h
        · rename_i hc; rw [if_pos hc]
        · simp at h

/-- A range error of `strconv.Atoi` comes with the bound of `int` nearest to the number
written: the least `int` for a text that starts with a minus sign, the greatest
otherwise. -/
theorem strconv_Atoi_range_sign (s : String) (h : (strconv_Atoi s).2 = some .rangeError) :
    (strconv_Atoi s).1 = if s.toList.head? = some '-' then -(2 ^ 63) else 2 ^ 63 - 1 := by
  unfold strconv_Atoi at h ⊢
  simp only [] at h ⊢
  by_cases hlen : 0 < s.utf8ByteSize ∧ s.utf8ByteSize < 19
  · rw [if_pos hlen] at h
    exact absurd h (atoiFast_no_range _)
  · rw [if_neg hlen] at h ⊢
    exact parseInt_range_sign _ h

theorem atoiDigits_ge (l : List Char) (acc v : Nat) (h : atoiDigits l acc = some v) :
    acc ≤ v := by
  induction l generalizing acc with
  | nil => simp [atoiDigits] at h; omega
  | cons c rest ih =>
    cases hd : digitVal c with
    | none => simp [atoiDigits, hd] at h
    | some d =>
      simp only [atoiDigits, hd] at h
      have := ih _ h
      omega

theorem atoiDigits_lt (l : List Char) (acc v : Nat) (h : atoiDigits l acc = some v) :
    v < (acc + 1) * 10 ^ l.length := by
  induction l generalizing acc with
  | nil => simp [atoiDigits] at h; simp; omega
  | cons c rest ih =>
    cases hd : digitVal c with
    | none => simp [atoiDigits, hd] at h
    | some d =>
      simp only [atoiDigits, hd] at h
      have h1 := ih _ h
      have hd9 := digitVal_le c d hd
      have h2 : (acc * 10 + d + 1) * 10 ^ rest.length ≤ ((acc + 1) * 10) * 10 ^ rest.length :=
        Nat.mul_le_mul_right _ (by omega)
      calc v < (acc * 10 + d + 1) * 10 ^ rest.length := h1
        _ ≤ ((acc + 1) * 10) * 10 ^ rest.length := h2
        _ = (acc + 1) * 10 ^ (rest.length + 1) := by rw [Nat.pow_succ]; ring

/-- On a string of digits `ParseUint` returns the number it denotes when that fits 64
bits, and the greatest 64-bit number with a range error when it does not. -/
theorem parseUintLoop_spec (l : List Char) (acc v : Nat) (h : atoiDigits l acc = some v)
    (hacc : acc ≤ 2 ^ 64 - 1) :
    parseUintLoop l acc =
      if v ≤ 2 ^ 64 - 1 then (v, none) else (2 ^ 64 - 1, some .rangeError) := by
  induction l generalizing acc with
  | nil =>
    simp only [atoiDigits, Option.some.injEq] at h
    subst h
    simp only [parseUintLoop]
    rw [if_pos hacc]
  | cons c rest ih =>
    cases hd : digitVal c with
    | none => simp [atoiDigits, hd] at h
    | some d =>
      simp only [atoiDigits, hd] at h
      have hge := atoiDigits_ge _ _ _ h
      have hd9 := digitVal_le c d hd
      simp only [parseUintLoop, hd]
      by_cases hcut : acc ≥ (2 ^ 64 - 1) / 10 + 1
      · rw [if_pos hcut]
        have : ¬ v ≤ 2 ^ 64 - 1 := by
          norm_num at hcut ⊢
          omega
        rw [if_neg this]
      · rw [if_neg hcut]
        by_cases hwrap : (acc * 10 + d) % 2 ^ 64 < acc * 10 ∨ (acc * 10 + d) % 2 ^ 64 > 2 ^ 64 - 1
        · rw [if_pos hwrap]
          have : ¬ v ≤ 2 ^ 64 - 1 := by
            norm_num at hcut hwrap ⊢
            omega
          rw [if_neg this]
        · rw [if_neg hwrap]
          have hlt : acc * 10 + d < 2 ^ 64 := by
            norm_num at hcut hwrap ⊢
            omega
          rw [Nat.mod_eq_of_lt hlt]
          exact ih _ h (by omega)

theorem utf8ByteSize_go_ge (l : List Char) : l.length ≤ String.utf8ByteSize.go l := by
  induction l with
  | nil => simp [String.utf8ByteSize.go]
  | cons c rest ih =>
    have := Char.utf8Size_pos c
    simp only [String.utf8ByteSize.go, List.length_cons]
    omega

theorem length_le_utf8ByteSize (s : String) : s.toList.length ≤ s.utf8ByteSize := by
  cases s with
  | mk l => exact utf8ByteSize_go_ge l

theorem parseInt_of_digits (s0 : List Char) (n : Nat) (hne : s0 ≠ [])
    (hds : (if s0.head? = some '-' ∨ s0.head? = some '+' then s0.tail else s0) ≠ [])
    (hdig : atoiDigits (if s0.head? = some '-' ∨ s0.head? = some '+' then s0.tail else s0) 0
      = some n) :
    parseInt s0 =
      if s0.head? = some '-' then
        (if n > 2 ^ 63 then (-(2 ^ 63), some .rangeError) else (-(n : Int), none))
      else
        (if n ≥ 2 ^ 63 then (2 ^ 63 - 1, some .rangeError) else ((n : Int), none)) := by
  have hswap : (if s0.head? = some '+' ∨ s0.head? = some '-' then s0.tail else s0)
      = (if s0.head? = some '-' ∨ s0.head? = some '+' then s0.tail else s0) := by
    by_cases h1 : s0.head? = some '-' <;> by_cases h2 : s0.head? = some '+' <;> simp [h1, h2]
  unfold parseInt
  rw [if_neg hne]
  simp only []
  rw [hswap]
  generalize (if s0.head? = some '-' ∨ s0.head? = some '+' then s0.tail else s0) = s at hds hdig
  unfold parseUint
  rw [if_neg hds, parseUintLoop_spec s 0 n hdig (by norm_num)]
  by_cases hfit : n ≤ 2 ^ 64 - 1
  · rw [if_pos hfit]
    simp only []
    by_cases hneg : s0.head? = some '-'
    · simp only [hneg, not_true_eq_false, false_and, if_false, true_and, if_true]
    · simp only [hneg, not_false_eq_true, true_and, false_and, if_false]
  · rw [if_neg hfit]
    simp only []
    have h63 : n > 2 ^ 63 := by norm_num at hfit ⊢; omega
    have h63' : n ≥ 2 ^ 63 := Nat.le_of_lt h63
    have hm : (2 ^ 64 - 1 : Nat) > 2 ^ 63 := by norm_num
    have hm' : (2 ^ 64 - 1 : Nat) ≥ 2 ^ 63 := by norm_num
    by_cases hneg : s0.head? = some '-'
    · simp only [hneg, not_true_eq_false, false_and, if_false, true_and, if_true]
      rw [if_pos hm, if_pos h63]
    · simp only [hneg, not_false_eq_true, true_and, false_and, if_false]
      rw [if_pos hm', if_pos h63']

theorem atoiFast_of_digits (s0 : List Char) (n : Nat)
    (hds : (if s0.head? = some '-' ∨ s0.head? = some '+' then s0.tail else s0) ≠ [])
    (hdig : atoiDigits (if s0.head? = some '-' ∨ s0.head? = some '+' then s0.tail else s0) 0
      = some n) :
    atoiFast s0 = ((if s0.head? = some '-' then -(n : Int) else (n : Int)), none) := by
  unfold atoiFast
  simp only []
  generalize (if s0.head? = some '-' ∨ s0.head? = some '+' then s0.tail else s0) = s at hds hdig
  have hlen : ¬ ((s0.head? = some '-' ∨ s0.head? = some '+') ∧ s.length < 1) := by
    intro hc
    have : s.length = 0 := by omega
    exact hds (List.length_eq_zero.mp this)
  rw [if_neg hlen, hdig]

/-- Atoi on a decimal numeral: the integer it denotes when that is an `int`, and otherwise
a range error with the bound of `int` nearest to it. -/
theorem strconv_Atoi_of_denoted (s : String) (v : Int) (h : denotedInt s = some v) :
    strconv_Atoi s =
      if 2 ^ 63 - 1 < v then (2 ^ 63 - 1, some .rangeError)
      else if v < -(2 ^ 63) then (-(2 ^ 63), some .rangeError)
      else (v, none) := by
  unfold denotedInt at h
  simp only [] at h
  by_cases hds : (if s.toList.head? = some '-' ∨ s.toList.head? = some '+' then s.toList.tail
      else s.toList) = []
  · rw [if_pos hds] at h; simp at h
  · rw [if_neg hds] at h
    cases hdv : decimalValue (if s.toList.head? = some '-' ∨ s.toList.head? = some '+'
        then s.toList.tail else s.toList) with
    | none => rw [hdv] at h; simp at h
    | some n =>
      rw [hdv] at h
      replace h : (if s.toList.head? = some '-' then -(n : Int) else (n : Int)) = v := by
        simpa using h
      have hdig : atoiDigits (if s.toList.head? = some '-' ∨ s.toList.head? = some '+'
          then s.toList.tail else s.toList) 0 = some n := by
        rw [atoiDigits_eq_foldl]; exact hdv
      have hne : s.toList ≠ [] := by
        intro hnil
        apply hds
        rw [hnil]; simp
      unfold strconv_Atoi
      show (if 0 < s.utf8ByteSize ∧ s.utf8ByteSize < 19 then atoiFast s.toList
        else parseInt s.toList) = _
      by_cases hlen : 0 < s.utf8ByteSize ∧ s.utf8ByteSize < 19
      · rw [if_pos hlen, atoiFast_of_digits _ n hds hdig]
        have hl1 : (if s.toList.head? = some '-' ∨ s.toList.head? = some '+'
            then s.toList.tail else s.toList).length ≤ 18 := by
          have h1 := length_le_utf8ByteSize s
          have h2 : (if s.toList.head? = some '-' ∨ s.toList.head? = some '+'
              then s.toList.tail else s.toList).length ≤ s.toList.length := by
            split
            · simp
            · exact Nat.le_refl _
          omega
        have hlt := atoiDigits_lt _ _ _ hdig
        have hpow : 10 ^ (if s.toList.head? = some '-' ∨ s.toList.head? = some '+'
            then s.toList.tail else s.toList).length ≤ 10 ^ 18 :=
          Nat.pow_le_pow_right (by norm_num) hl1
        have hn : n < 1000000000000000000 := by
          have : (0 + 1) * 10 ^ (if s.toList.head? = some '-' ∨ s.toList.head? = some '+'
              then s.toList.tail else s.toList).length ≤ 10 ^ 18 := by simpa using hpow
          have h18 : (10 : Nat) ^ 18 = 1000000000000000000 := by norm_num
          omega
        have hv1 : ¬ (2 ^ 63 - 1 < v) := by
          rw [← h]; split <;> (norm_num; omega)
        have hv2 : ¬ (v < -(2 ^ 63)) := by
          rw [← h]; split <;> (norm_num; omega)
        rw [if_neg hv1, if_neg hv2, h]
      · rw [if_neg hlen, parseInt_of_digits _ n hne hds hdig]
        by_cases hneg : s.toList.head? = some '-'
        · rw [if_pos hneg] at h ⊢
          subst h
          by_cases hbig : n > 2 ^ 63
          · have hv1 : ¬ (2 ^ 63 - 1 < -(n : Int)) := by norm_num at hbig ⊢; omega
            have hv2 : -(n : Int) < -(2 ^ 63) := by norm_num at hbig ⊢; omega
            rw [if_pos hbig, if_neg hv1, if_pos hv2]
          · have hv1 : ¬ (2 ^ 63 - 1 < -(n : Int)) := by norm_num at hbig ⊢; omega
            have hv2 : ¬ (-(n : Int) < -(2 ^ 63)) := by norm_num at hbig ⊢; omega
            rw [if_neg hbig, if_neg hv1, if_neg hv2]
        · rw [if_neg hneg] at h ⊢
          subst h
          by_cases hbig : n ≥ 2 ^ 63
          · have hv1 : (2 ^ 63 - 1 < (n : Int)) := by norm_num at hbig ⊢; omega
            rw [if_pos hbig, if_pos hv1]
          · have hv1 : ¬ (2 ^ 63 - 1 < (n : Int)) := by norm_num at hbig ⊢; omega
            have hv2 : ¬ ((n : Int) < -(2 ^ 63)) := by norm_num at hbig ⊢; omega
            rw [if_neg hbig, if_neg hv1, if_neg hv2]

/-- The model of `time.Parse` on some values: the start of Unix time is 62135596800
seconds after the zero time (the constant `unixToInternal` of package time); an hour of
one digit, several blanks and a fractional second are accepted; a day that the month does
not have, text that is not a timestamp and text left over are errors. -/
theorem time_Parse_values :
    time_Parse "1970-01-01 00:00:00" = (62135596800 * 1000000000, false) ∧
    time_Parse "2024-01-01 00:00:00" = (63839664000 * 1000000000, false) ∧
    time_Parse "2024-01-01 5:04:05" = (63839682245 * 1000000000, false) ∧
    time_Parse "2024-01-01   15:04:05.5" = (63839718245 * 1000000000 + 500000000, false) ∧
    time_Parse "2023-02-29 00:00:00" = (zeroTime, true) ∧
    time_Parse "yesterday" = (zeroTime, true) ∧
    time_Parse "2024-01-01 00:00:00Z" = (zeroTime, true) := by
  decide

/-- Every error of `time.Parse` comes with the zero `Time`. -/
theorem time_Parse_error_zero (s : String) (h : (time_Parse s).2 = true) :
    (time_Parse s).1 = zeroTime := by
  unfold time_Parse at h ⊢
  cases hp : parseStamp s.toList with
  | none => rfl
  | some t => rw [hp] at h; simp at h

theorem csvReadAllLoop_same (fieldsPerRecord n : Nat) (rows records : List (List String))
    (hpos : 0 < fieldsPerRecord) (h : ∀ r ∈ rows, r.length = fieldsPerRecord) :
    csvReadAllLoop fieldsPerRecord n rows records = .ok (records ++ rows) := by
  induction rows generalizing n records with
  | nil => simp [csvReadAllLoop]
  | cons row rest ih =>
    have hrow := h row (List.mem_cons_self _ _)
    simp only [csvReadAllLoop]
    rw [if_pos hpos, if_neg (by simpa using hrow),
      ih (n + 1) (records ++ [row]) (fun r hr => h r (List.mem_cons_of_mem _ hr))]
    simp

/-- `ReadAll` returns all the rows when they have one and the same number of fields. -/
theorem csvReadAll_same (rows : List (List String)) (hpos : ∀ r ∈ rows, 0 < r.length)
    (hsame : ∀ r1 ∈ rows, ∀ r2 ∈ rows, r1.length = r2.length) :
    csvReadAll rows = .ok rows := by
  unfold csvReadAll
  cases rows with
  | nil => simp [csvReadAllLoop]
  | cons row rest =>
    have h0 := hpos row (List.mem_cons_self _ _)
    simp only [csvReadAllLoop]
    rw [if_neg (by omega), csvReadAllLoop_same row.length 1 rest ([] ++ [row]) h0
      (fun r hr => hsame r (List.mem_cons_of_mem _ hr) row (List.mem_cons_self _ _))]
    simp

theorem readLogLoop_ok (records : List (List String)) (logs : List LogEntry)
    (h : ∀ r ∈ records, 4 ≤ r.length) :
    readLogLoop records logs = .ok (logs ++ records.map entryOfRecord) := by
  induction records generalizing logs with
  | nil => simp [readLogLoop]
  | cons record rest ih =>
    have hlen := h record (List.mem_cons_self _ _)
    have ih' := ih (logs ++ [entryOfRecord record])
      (fun r hr => h r (List.mem_cons_of_mem _ hr))
    simp only [readLogLoop, goIndex_of_lt record 0 (by omega), goIndex_of_lt record 1 (by omega),
      goIndex_of_lt record 2 (by omega), goIndex_of_lt record 3 (by omega)]
    simp only [bind, Except.bind]
    simpa [entryOfRecord] using ih'

/-- C9 (as stated) fails, in three ways: a row of three fields makes `readLog` panic on
`record[3]` instead of yielding zero-value fields; a row of five fields after a row of
four makes `ReadAll`, and so `readLog`, return an error; and a server-port field that is
out of range becomes the greatest `int`, not 0 (next to a timestamp that parses). -/
theorem readLog_counterexample :
    readLog [["2024-01-01 00:00:00", "10.0.0.1", "5555"]]
      = .error (.panicked (.indexOutOfRange 3 3)) ∧
    readLog [["2024-01-01 00:00:00", "10.0.0.1", "5555", "8080"],
        ["2024-01-01 00:00:01", "10.0.0.1", "5555", "8080", "x"]]
      = .error (.returned (.fieldCount 2)) ∧
    (strconv_Atoi "99999999999999999999").2 = some .rangeError ∧
    readLog [["2024-01-01 00:00:00", "10.0.0.1", "5555", "99999999999999999999"]]
      = .ok [{ Timestamp := 63839664000000000000, ClientIP := "10.0.0.1",
               ClientPort := "5555", ServerPort := 9223372036854775807 }] := by
  decide

/-- C9 (amended): for rows that all have one and the same number of fields, at least four,
`readLog` rejects none: it returns, without an error or a panic, one log entry per row in
file order, with the second and third fields as ClientIP and ClientPort.  The Timestamp is
what `time.Parse` returns, the zero time when the field does not parse.  The ServerPort is
what `strconv.Atoi` returns: 0 on a syntax error; on a range error the bound of `int` on
the side of the sign written; and for a field that is a decimal numeral the integer it
denotes, or the bound of `int` nearest to it when it is out of range. -/
theorem readLog_never_rejects (rows : List (List String))
    (hfields : ∀ r ∈ rows, 4 ≤ r.length)
    (hsame : ∀ r1 ∈ rows, ∀ r2 ∈ rows, r1.length = r2.length) :
    ∃ logs, readLog rows = .ok logs ∧
      logs.length = rows.length ∧
      ∀ i (hr : i < rows.length) (hl : i < logs.length),
        (logs.get ⟨i, hl⟩).ClientIP = (rows.get ⟨i, hr⟩).getD 1 "" ∧
        (logs.get ⟨i, hl⟩).ClientPort = (rows.get ⟨i, hr⟩).getD 2 "" ∧
        (logs.get ⟨i, hl⟩).Timestamp = (time_Parse ((rows.get ⟨i, hr⟩).getD 0 "")).1 ∧
        (logs.get ⟨i, hl⟩).ServerPort = (strconv_Atoi ((rows.get ⟨i, hr⟩).getD 3 "")).1 ∧
        ((time_Parse ((rows.get ⟨i, hr⟩).getD 0 "")).2 = true →
          (logs.get ⟨i, hl⟩).Timestamp = zeroTime) ∧
        ((strconv_Atoi ((rows.get ⟨i, hr⟩).getD 3 "")).2 = some .syntaxError →
          (logs.get ⟨i, hl⟩).ServerPort = 0) ∧
        ((strconv_Atoi ((rows.get ⟨i, hr⟩).getD 3 "")).2 = some .rangeError →
          (logs.get ⟨i, hl⟩).ServerPort =
            if ((rows.get ⟨i, hr⟩).getD 3 "").toList.head? = some '-' then -(2 ^ 63)
            else 2 ^ 63 - 1) ∧
        (∀ v, denotedInt ((rows.get ⟨i, hr⟩).getD 3 "") = some v →
          (logs.get ⟨i, hl⟩).ServerPort =
            if 2 ^ 63 - 1 < v then 2 ^ 63 - 1
            else if v < -(2 ^ 63) then -(2 ^ 63)
            else v) := by
  have hall : csvReadAll rows = .ok rows :=
    csvReadAll_same rows (fun r hr => by have := hfields r hr; omega) hsame
  refine ⟨rows.map entryOfRecord, ?_, by simp, ?_⟩
  · unfold readLog
    rw [hall]
    simp only []
    rw [readLogLoop_ok rows [] hfields]
    simp
  · intro i hr hl
    have hget : (rows.map entryOfRecord).get ⟨i, hl⟩ = entryOfRecord (rows.get ⟨i, hr⟩) := by
      simp
    rw [hget]
    refine ⟨rfl, rfl, rfl, rfl, ?_, ?_, ?_, ?_⟩
    · intro h; exact time_Parse_error_zero _ h
    · intro h; exact strconv_Atoi_syntax_zero _ h
    · intro h; exact strconv_Atoi_range_sign _ h
    · intro v hv
      show (strconv_Atoi ((rows.get ⟨i, hr⟩).getD 3 "")).1 = _
      rw [strconv_Atoi_of_denoted _ v hv]
      split
      · rfl
      · split <;> rfl

theorem readLog_never_rejects_witness :
    ∃ logs, readLog [["2024-01-01 00:00:00", "10.0.0.1", "5555", "8080"],
         ["yesterday", "10.0.0.2", "6666", "http"],
         ["2024-01-01 00:00:02", "10.0.0.2", "6666", "-99999999999999999999"]] = .ok logs ∧
      logs.length = [["2024-01-01 00:00:00", "10.0.0.1", "5555", "8080"],
         ["yesterday", "10.0.0.2", "6666", "http"],
         ["2024-01-01 00:00:02", "10.0.0.2", "6666", "-99999999999999999999"]].length :=
  (readLog_never_rejects
    [["2024-01-01 00:00:00", "10.0.0.1", "5555", "8080"],
     ["yesterday", "10.0.0.2", "6666", "http"],
     ["2024-01-01 00:00:02", "10.0.0.2", "6666", "-99999999999999999999"]]
    (by decide) (by decide)).imp (fun _ h => ⟨h.1, h.2.1⟩)

end PortTester
